import Mathlib

/-!
Shallow embedding of `newtaxa.py` (FinBif-scripts): the occurrence
reconciliation engine that detects new species occurrences in Finland's
biogeographical provinces and new species for Finland.

Conventions used throughout:
* JSON-like records coming from the API are modelled by `JVal` (string
  leaves and objects as insertion-ordered association lists); Python dicts
  are association lists that keep insertion order, as Python ≥3.7 dicts do.
* A Python run that raises an uncaught exception (`KeyError`, `TypeError`,
  `ValueError`) is modelled as `Option.none` of the corresponding stage.
* Python's `sorted(range(len x), key=x.__getitem__, reverse=r)` is a stable
  sort of the indices; because distinct indices never compare equal, it is
  exactly the unique reordering of `range (len x)` sorted by the total order
  "by key (descending when `reverse`), ties by index ascending".  We embed it
  with `List.insertionSort` over that total order.
* String comparison in Python is lexicographic on code points; `lexLtB`
  below is that comparison on `String.data`.
-/

/-- JSON-like values: string leaves and objects (insertion-ordered field lists).
Other JSON value kinds (numbers, arrays, booleans) do not occur at any field
the engine reads, so they are not modelled. -/
inductive JVal where
  | str (s : String) : JVal
  | obj (fields : List (String × JVal)) : JVal

/-- Association-list lookup (Python `d[k]` when the key may be absent). -/
def alook {α : Type} : List (String × α) → String → Option α
  | [], _ => none
  | (k2, v) :: rest, k => if k2 = k then some v else alook rest k

/-- Association-list insert-or-overwrite: Python `d[k] = v` on a dict, which
keeps the position of an existing key and appends a new key at the end. -/
def aset {α : Type} : List (String × α) → String → α → List (String × α)
  | [], k, v => [(k, v)]
  | (k2, w) :: rest, k, v =>
      if k2 = k then (k, v) :: rest else (k2, w) :: aset rest k v

/-- The source's `exists` helper: drill down through nested keys, `False` as
soon as one is missing.  (Drilling into a string leaf is `False`; in Python
`key in someString` is a substring test, but no key the script uses can be a
substring of a data string there, so the branch is unreachable on real data.) -/
def exists_ (x : JVal) : List String → Bool
  | [] => true
  | k :: rest =>
      match x with
      | JVal.obj fs =>
          match alook fs k with
          | some v => exists_ v rest
          | none => false
      | JVal.str _ => false

/-- The source's `check` helper: drill down through nested keys, returning the
value if every key exists and `ifnot` (as a string leaf) otherwise. -/
def check (x : JVal) (keys : List String) (ifnot : String) : JVal :=
  match keys with
  | [] => x
  | k :: rest =>
      match x with
      | JVal.obj fs =>
          match alook fs k with
          | some v => check v rest ifnot
          | none => JVal.str ifnot
      | JVal.str _ => JVal.str ifnot

/-- Unchecked nested indexing `x[k1][k2]...` : `none` models the `KeyError`
Python raises when a key is missing. -/
def getPath (x : JVal) : List String → Option JVal
  | [] => some x
  | k :: rest =>
      match x with
      | JVal.obj fs =>
          match alook fs k with
          | some v => getPath v rest
          | none => none
      | JVal.str _ => none

/-- Unchecked nested indexing that additionally demands a string leaf (every
field the script reads this way is used as a string; a non-string value would
make Python fail at the subsequent string operation). -/
def getStr (x : JVal) (keys : List String) : Option String :=
  match getPath x keys with
  | some (JVal.str s) => some s
  | _ => none

/-- View a `JVal` as the string it must be at use sites (string methods on a
dict raise in Python, modelled as `none`). -/
def asString : JVal → Option String
  | JVal.str s => some s
  | JVal.obj _ => none

/-- Python `k in d` for a `JVal` object (a string leaf has no keys the script
ever probes, see `exists_`). -/
def jHasKey (x : JVal) (k : String) : Bool :=
  match x with
  | JVal.obj fs => (alook fs k).isSome
  | JVal.str _ => false

/-- Guarded indexing `x[k]`: in the script every use is dominated by a
`jHasKey` test, so the default branch is never taken on the guarded paths. -/
def jIndex (x : JVal) (k : String) : JVal :=
  match x with
  | JVal.obj fs =>
      match alook fs k with
      | some v => v
      | none => JVal.str ""
  | JVal.str _ => JVal.str ""

/-- Lexicographic strict comparison of code-point sequences: Python's `<` on
strings restricted to their character lists. -/
def lexLtB : List Char → List Char → Bool
  | [], [] => false
  | [], _ :: _ => true
  | _ :: _, [] => false
  | a :: as, b :: bs =>
      if a < b then true else if b < a then false else lexLtB as bs

/-- Python's `s1 < s2` on strings (lexicographic by code point). -/
def sLt (a b : String) : Bool :=
  lexLtB a.data b.data

/-- Python's `s1 <= s2` on strings. -/
def sLe (a b : String) : Prop :=
  sLt b a = false

/-- The comparison realised by Python's stable
`sorted(range(len x), key=x.__getitem__, reverse)` on indices `i j` into `x`:
key strictly before (descending keys when `reverse`), or keys equal and
`i ≤ j` (stability: ties keep the original order). -/
def keyLeB (x : List String) (reverse : Bool) (i j : Nat) : Bool :=
  match reverse with
  | true =>
    lexLtB (x.getD j "").data (x.getD i "").data ||
      ((x.getD i "") == (x.getD j "") && decide (i ≤ j))
  | false =>
    lexLtB (x.getD i "").data (x.getD j "").data ||
      ((x.getD i "") == (x.getD j "") && decide (i ≤ j))

/-- The source's `order`: the order into which a list will be sorted,
`sorted(range(len(x)), key=x.__getitem__, reverse=reverse)`. -/
def order (x : List String) (reverse : Bool) : List Nat :=
  List.insertionSort (fun i j => keyLeB x reverse i j = true) (List.range x.length)

/-- The source's `sort`: rearrange `x` into the order `o` (the default value
is never read when `o` only holds indices below `x.length`). -/
def sort {α : Type} [Inhabited α] (x : List α) (o : List Nat) : List α :=
  o.map (fun i => x.getD i default)

/-- Numeric value of a list of decimal digits (most significant first). -/
def digitsVal (l : List Char) : Nat :=
  l.foldl (fun acc c => acc * 10 + (c.toNat - 48)) 0

/-- Parse a non-empty all-digit character list, as Python `int` does after
sign handling; `none` models `ValueError`. -/
def natDigits : List Char → Option Nat
  | [] => none
  | c :: rest =>
      if (c :: rest).all Char.isDigit then some (digitsVal (c :: rest)) else none

/-- Python `int(...)` on a short string (an optional sign then decimal
digits).  Python additionally strips surrounding whitespace and allows
underscore digit separators; neither occurs in the four-character date
prefixes this script parses, so they are not modelled. -/
def pyInt (l : List Char) : Option Int :=
  match l with
  | [] => none
  | c :: rest =>
      if c = '-' then (natDigits rest).map (fun n => -(n : Int))
      else if c = '+' then (natDigits rest).map (fun n => (n : Int))
      else (natDigits (c :: rest)).map (fun n => (n : Int))

/-- The year parse of filter 1: `int(gatheredDate[0:4])` (Python slices
strings by code point, i.e. by `Char`). -/
def yearOf (d : String) : Option Int :=
  pyInt (d.data.take 4)

/-- Python `str.replace` on character lists: replace each non-overlapping
occurrence of `pat`, scanning left to right.  The fuel is the input length,
which bounds the number of steps; an empty pattern (never used by the
script) copies the input unchanged. -/
def replaceFuel (pat rep : List Char) : Nat → List Char → List Char
  | 0, s => s
  | _ + 1, [] => []
  | f + 1, c :: rest =>
      if pat ≠ [] ∧ pat.isPrefixOf (c :: rest) then
        rep ++ replaceFuel pat rep f (List.drop pat.length (c :: rest))
      else c :: replaceFuel pat rep f rest

/-- Python `s.replace(pat, rep)`. -/
def pyReplace (s pat rep : String) : String :=
  String.mk (replaceFuel pat.data rep.data s.data.length s.data)

/-- Per-specimen detail retained by the aggregation (`newtaxa.py` lines
195-218). -/
structure SpecimenDetail where
  specimenID : String
  modifiedDate : String
  gatheredDate : String
  reliability : String
deriving DecidableEq, Inhabited

/-- One `(species, province)` group of `occurrences` (`newtaxa.py` line 166):
`{ occurrenceCode: .., speciesName: .., specimens: [..] }`. -/
structure AggEntry where
  occurrenceCode : String
  speciesName : String
  specimens : List SpecimenDetail
deriving DecidableEq, Inhabited

/-- The `occurrences` variable: species id -> province id -> group, both
levels insertion-ordered dicts. -/
abbrev Occurrences := List (String × List (String × AggEntry))

/-- The data extracted from one raw specimen record by the region-novelty
ingestion loop body. -/
structure ExtractedR where
  species : String
  area : String
  occurrenceCode : String
  speciesName : String
  detail : SpecimenDetail
deriving DecidableEq, Inhabited

/-- The field extractions of `newtaxa.py` lines 179-200, in source order,
for a record that passed the species-id guard.  Direct Python subscripts
(`sp['gathering']['interpretations']['biogeographicalProvince']`,
`sp['unit']['linkings']['taxon']['scientificName']`,
`sp['unit']['interpretations']['reliability']`, the id fallbacks) are
`getStr` (a missing field raises, hence `none`); `document.modifiedDate`
and `gathering.eventDate.end` go through `check` with default `""`. -/
def extractFieldsR (teAll : JVal) (sp : JVal) : Option ExtractedR := do
  let rawId ← getStr sp ["unit", "linkings", "taxon", "id"]
  let species := pyReplace rawId "http://tun.fi/" ""
  let rawArea ← getStr sp ["gathering", "interpretations", "biogeographicalProvince"]
  let area := pyReplace rawArea "http://tun.fi/" ""
  let occurrenceCode ← asString (check teAll [species, area] "")
  let speciesName ← getStr sp ["unit", "linkings", "taxon", "scientificName"]
  let unitV ← getPath sp ["unit"]
  let specimenID ←
    if jHasKey unitV "unitId" then getStr sp ["unit", "unitId"]
    else getStr sp ["document", "documentId"]
  let modifiedDate ← asString (check sp ["document", "modifiedDate"] "")
  let gatheredDate ← asString (check sp ["gathering", "eventDate", "end"] "")
  let reliability ← getStr sp ["unit", "interpretations", "reliability"]
  pure { species := species, area := area, occurrenceCode := occurrenceCode,
         speciesName := speciesName,
         detail := { specimenID := specimenID, modifiedDate := modifiedDate,
                     gatheredDate := gatheredDate, reliability := reliability } }

/-- One iteration of the region-novelty ingestion loop (`newtaxa.py` lines
176-200): records without a resolvable species id are skipped
(`some none`); on the guarded path a missing directly-subscripted field
makes the run fail (`none`). -/
def extractRegionSpecimen (teAll : JVal) (sp : JVal) : Option (Option ExtractedR) :=
  if exists_ sp ["unit", "linkings", "taxon", "id"] then
    match extractFieldsR teAll sp with
    | some e => some (some e)
    | none => none
  else some none

/-- The `occurrences` dict update of `newtaxa.py` lines 202-218: create the
species, create the province, or append the specimen detail to an existing
group (in the last case `occurrenceCode` and `speciesName` are left as they
were). -/
def addSpecimen (occ : Occurrences) (e : ExtractedR) : Occurrences :=
  match alook occ e.species with
  | none =>
      aset occ e.species
        [(e.area, { occurrenceCode := e.occurrenceCode,
                    speciesName := e.speciesName, specimens := [e.detail] })]
  | some oc =>
      match alook oc e.area with
      | none =>
          aset occ e.species
            (aset oc e.area
              { occurrenceCode := e.occurrenceCode, speciesName := e.speciesName,
                specimens := [e.detail] })
      | some entry =>
          aset occ e.species
            (aset oc e.area { entry with specimens := entry.specimens ++ [e.detail] })

/-- Ingest the records of one fetched page into `occurrences`. -/
def ingestResults (teAll : JVal) (occ : Occurrences) : List JVal → Option Occurrences
  | [] => some occ
  | sp :: rest =>
      match extractRegionSpecimen teAll sp with
      | none => none
      | some none => ingestResults teAll occ rest
      | some (some e) => ingestResults teAll (addSpecimen occ e) rest

/-- One page as returned by the paginated warehouse query (the fields the
loop reads). -/
structure Page where
  results : List JVal
  currentPage : Int
  lastPage : Int

/-- The region-novelty download loop (`newtaxa.py` lines 162-225): fetch
page 1, 2, ... ingesting each, and stop as soon as a fetched page reports
`currentPage >= lastPage`.  The `fuel` argument bounds the iterations; a run
whose source never reports the last page never terminates, which is
modelled as `none` at fuel 0. -/
def pageLoop (fetch : Nat → Page) (teAll : JVal) :
    Nat → Nat → Occurrences → Option Occurrences
  | 0, _, _ => none
  | fuel + 1, page, occ =>
      match ingestResults teAll occ (fetch page).results with
      | none => none
      | some occ2 =>
          if (fetch page).currentPage ≥ (fetch page).lastPage then some occ2
          else pageLoop fetch teAll fuel (page + 1) occ2

/-- One row of `notinTE` (`newtaxa.py` line 229):
`[species, speciesName, province, occurrenceCode, [specimens],
[modifiedDates], [gatheredDates], [reliabilities]]`. -/
structure TELine where
  species : String
  speciesName : String
  area : String
  occurrenceCode : String
  specimens : List String
  modifiedDates : List String
  gatheredDates : List String
  reliabilities : List String
deriving DecidableEq, Inhabited

/-- Rows extracted for one new `(species, province)` pair (`newtaxa.py`
lines 240-259; the four per-specimen append loops are the four maps). -/
def mkLine (sp area : String) (entry : AggEntry) : TELine :=
  { species := sp, speciesName := entry.speciesName, area := area,
    occurrenceCode := entry.occurrenceCode,
    specimens := entry.specimens.map (fun s => s.specimenID),
    modifiedDates := entry.specimens.map (fun s => s.modifiedDate),
    gatheredDates := entry.specimens.map (fun s => s.gatheredDate),
    reliabilities := entry.specimens.map (fun s => s.reliability) }

/-- Inner loop of the `notinTE` construction: the provinces of one species
that is present in Taxon Editor data (`newtaxa.py` lines 237-259). -/
def areasLines (te : JVal) (sp : String) :
    List (String × AggEntry) → List TELine
  | [] => []
  | (area, entry) :: rest =>
      (if jHasKey (jIndex te sp) area then [] else [mkLine sp area entry]) ++
        areasLines te sp rest

/-- The `notinTE` construction loop (`newtaxa.py` lines 230-259): for each
aggregated species that is a key of `occurrencesTE`, every aggregated
province not among that species' "present" provinces yields a row. -/
def notinTELines (te : JVal) : Occurrences → List TELine
  | [] => []
  | (sp, areas) :: rest =>
      (if jHasKey te sp then areasLines te sp areas else []) ++
        notinTELines te rest

/-- The two "historical" occurrence codes of filter 1 (`newtaxa.py` line
274). -/
def historicalB (code : String) : Bool :=
  (code == "MX.typeOfOccurrenceOldRecords") ||
    (code == "MX.typeOfOccurrenceExtirpated")

/-- The `recentYear` loop of filter 1 (`newtaxa.py` lines 276-283): scan the
gathered dates, skipping empty ones, parsing the year of each non-empty one
(a date whose first four characters `int` cannot parse raises `ValueError`,
hence `none`), and remember whether any parsed year is at least 1940. -/
def recentYearLoop : List String → Option Bool
  | [] => some false
  | d :: rest =>
      if d == "" then recentYearLoop rest
      else
        match yearOf d with
        | none => none
        | some y =>
            match recentYearLoop rest with
            | none => none
            | some b => some (b || decide (y ≥ 1940))

/-- The `include` flag after filter 1 (`newtaxa.py` lines 271-287): a row
with a historical occurrence code is kept iff some specimen is recent;
every other row is kept. -/
def includeFlag (line : TELine) : Option Bool :=
  if historicalB line.occurrenceCode then recentYearLoop line.gatheredDates
  else some true

/-- One row of `newToProvinces` (`newtaxa.py` lines 299-306), in
human-readable format: the four specimen lists space-joined. -/
structure OutLine where
  species : String
  speciesName : String
  province : String
  occurrenceCode : String
  specimens : String
  modifiedDate : String
  gatheredDate : String
  reliability : String
deriving DecidableEq, Inhabited

/-- Python `" ".join(l)`. -/
def joinSpace (l : List String) : String :=
  String.intercalate " " l

/-- Sorting and formatting of one kept row (`newtaxa.py` lines 291-306):
sort the four parallel specimen lists by modification date descending, then
prefix the species URI, replace the province id by its name
(`provinces[line[2]]` is a direct subscript: an unknown id raises, hence
`none`), and space-join the four lists. -/
def formatLine (provinces : List (String × String)) (line : TELine) :
    Option OutLine := do
  let o := order line.modifiedDates true
  let provName ← alook provinces line.area
  pure { species := "http://tun.fi/" ++ line.species,
         speciesName := line.speciesName,
         province := provName,
         occurrenceCode := line.occurrenceCode,
         specimens := joinSpace (sort line.specimens o),
         modifiedDate := joinSpace (sort line.modifiedDates o),
         gatheredDate := joinSpace (sort line.gatheredDates o),
         reliability := joinSpace (sort line.reliabilities o) }

/-- The filter-and-format loop over `notinTE` (`newtaxa.py` lines 266-306):
keep the rows whose `include` flag survives filter 1, sorted and formatted. -/
def regionStage (provinces : List (String × String)) :
    List TELine → Option (List OutLine)
  | [] => some []
  | line :: rest => do
      let inc ← includeFlag line
      if inc then do
        let out ← formatLine provinces line
        let rest2 ← regionStage provinces rest
        pure (out :: rest2)
      else regionStage provinces rest

/-- The two cross-record sort passes over `newToProvinces` (`newtaxa.py`
lines 308-326): first a stable sort by the space-joined modification-date
string, descending, then a stable sort by occurrence code, ascending. -/
def finalSortRegion (l : List OutLine) : List OutLine :=
  let o1 := order (l.map (fun i => i.modifiedDate)) true
  let l2 := sort l o1
  let o2 := order (l2.map (fun i => i.occurrenceCode)) false
  sort l2 o2

/-- The data extracted from one raw specimen record by the country-novelty
ingestion loop body. -/
structure ExtractedC where
  species : String
  speciesName : String
  detail : SpecimenDetail
deriving DecidableEq, Inhabited

/-- The field extractions of `newtaxa.py` lines 360-379, in source order.
Note the unit-id probe differs from the region path: it tests and reads
`unit.linkings.unitId`, not `unit.unitId`. -/
def extractFieldsC (sp : JVal) : Option ExtractedC := do
  let rawId ← getStr sp ["unit", "linkings", "taxon", "id"]
  let species := pyReplace rawId "http://tun.fi/" ""
  let speciesName ← getStr sp ["unit", "linkings", "taxon", "scientificName"]
  let linkings ← getPath sp ["unit", "linkings"]
  let specimenID ←
    if jHasKey linkings "unitId" then getStr sp ["unit", "linkings", "unitId"]
    else getStr sp ["document", "documentId"]
  let modifiedDate ← asString (check sp ["document", "modifiedDate"] "")
  let gatheredDate ← asString (check sp ["gathering", "eventDate", "end"] "")
  let reliability ← getStr sp ["unit", "interpretations", "reliability"]
  pure { species := species, speciesName := speciesName,
         detail := { specimenID := specimenID, modifiedDate := modifiedDate,
                     gatheredDate := gatheredDate, reliability := reliability } }

/-- One iteration of the country-novelty ingestion loop (`newtaxa.py` lines
357-379), with the same skip/fail split as the region path. -/
def extractCountrySpecimen (sp : JVal) : Option (Option ExtractedC) :=
  if exists_ sp ["unit", "linkings", "taxon", "id"] then
    match extractFieldsC sp with
    | some e => some (some e)
    | none => none
  else some none

/-- One value of the `notinFI` dict (`newtaxa.py` line 349):
`[species, speciesName, [specimenIDs], [modifiedDates], [gatheredDates],
[reliabilities]]`. -/
structure FILine where
  species : String
  speciesName : String
  specimenIDs : List String
  modifiedDates : List String
  gatheredDates : List String
  reliabilities : List String
deriving DecidableEq, Inhabited

/-- The `notinFI` dict update (`newtaxa.py` lines 381-391): create the
species with the current record's name, or append the detail lists
(`speciesName` is left as it was). -/
def addFI (m : List (String × FILine)) (e : ExtractedC) : List (String × FILine) :=
  match alook m e.species with
  | none =>
      aset m e.species
        { species := e.species, speciesName := e.speciesName,
          specimenIDs := [e.detail.specimenID],
          modifiedDates := [e.detail.modifiedDate],
          gatheredDates := [e.detail.gatheredDate],
          reliabilities := [e.detail.reliability] }
  | some line =>
      aset m e.species
        { line with
          specimenIDs := line.specimenIDs ++ [e.detail.specimenID],
          modifiedDates := line.modifiedDates ++ [e.detail.modifiedDate],
          gatheredDates := line.gatheredDates ++ [e.detail.gatheredDate],
          reliabilities := line.reliabilities ++ [e.detail.reliability] }

/-- Ingest the country-novelty records (`newtaxa.py` lines 357-391). -/
def ingestFI (m : List (String × FILine)) : List JVal → Option (List (String × FILine))
  | [] => some m
  | sp :: rest =>
      match extractCountrySpecimen sp with
      | none => none
      | some none => ingestFI m rest
      | some (some e) => ingestFI (addFI m e) rest

/-- The country-novelty query performs one single fetch of page 1
(`newtaxa.py` lines 352-354: `page=1` in the url, no loop) and ingests only
those results. -/
def notinFIFromSource (fetch : Nat → Page) : Option (List (String × FILine)) :=
  ingestFI [] (fetch 1).results

/-- One row of `newToFI` (`newtaxa.py` lines 409-415). -/
structure CountryOut where
  species : String
  speciesName : String
  specimens : String
  modifiedDate : String
  gatheredDate : String
  reliability : String
deriving DecidableEq, Inhabited

/-- Per-species sorting and formatting on the country path (`newtaxa.py`
lines 398-415): no filter of any kind is applied. -/
def countryFormatLine (line : FILine) : CountryOut :=
  let o := order line.modifiedDates true
  { species := "http://tun.fi/" ++ line.species,
    speciesName := line.speciesName,
    specimens := joinSpace (sort line.specimenIDs o),
    modifiedDate := joinSpace (sort line.modifiedDates o),
    gatheredDate := joinSpace (sort line.gatheredDates o),
    reliability := joinSpace (sort line.reliabilities o) }

/-- The `newToFI` construction loop (`newtaxa.py` lines 395-415): every
entry of `notinFI` is formatted; none is dropped. -/
def countryStage (m : List (String × FILine)) : List CountryOut :=
  m.map (fun p => countryFormatLine p.2)

/-- The single cross-record sort pass over `newToFI` (`newtaxa.py` lines
417-425). -/
def finalSortFI (l : List CountryOut) : List CountryOut :=
  sort l (order (l.map (fun i => i.modifiedDate)) true)

/-- One entry of a species' `occurrences` list in the Taxon Editor response
(`newtaxa.py` line 146: fields `area` and `status`). -/
structure RefOccurrence where
  area : String
  status : String
deriving DecidableEq, Inhabited

/-- One species of the Taxon Editor response (`newtaxa.py` lines 135-139):
its id, and its `occurrences` list when the field is present. -/
structure RefSpecies where
  id : String
  occurrences : Option (List RefOccurrence)
deriving DecidableEq, Inhabited

/-- The confirmed-occurrence vocabulary (`newtaxa.py` line 32). -/
def occursStrings : List String :=
  ["MX.typeOfOccurrenceOccurs", "MX.typeOfOccurrenceStablePopulation",
   "MX.typeOfOccurrenceCommon", "MX.typeOfOccurrenceRare",
   "MX.typeOfOccurrenceVeryRare", "MX.typeOfOccurrenceImport",
   "MX.typeOfOccurrenceAnthropogenic", "MX.typeOfOccurrenceAlienOldResident",
   "MX.typeOfOccurrenceSpontaneousNewEphemeral",
   "MX.typeOfOccurrenceAlienNewEphemeral",
   "MX.typeOfOccurrenceAlienNewResident",
   "MX.typeOfOccurrenceSmallDegreeCultivatedOrigin",
   "MX.typeOfOccurrenceNotableDegreeCultivatedOrigin",
   "MX.typeOfOccurrenceCompletelyCultivatedOrigin",
   "MX.typeOfOccurrenceOnlyCultivated"]

/-- The per-species `ocs`/`ocsAll` loop (`newtaxa.py` lines 145-152): `ocs`
collects the provinces whose status is in `occursStrings`, `ocsAll` every
province with its status; both are dicts (last write wins). -/
def buildOccAux (ocs ocsAll : List (String × JVal)) :
    List RefOccurrence → List (String × JVal) × List (String × JVal)
  | [] => (ocs, ocsAll)
  | i :: rest =>
      let ocs2 := if i.status ∈ occursStrings then aset ocs i.area (JVal.str i.status)
                  else ocs
      buildOccAux ocs2 (aset ocsAll i.area (JVal.str i.status)) rest

/-- The `occurrencesTE` / `occurrencesTEall` construction (`newtaxa.py`
lines 124-156): species without an `occurrences` field are skipped; the
responses of the taxa queried are modelled as one concatenated result
list. -/
def buildTEAux (te teAll : List (String × JVal)) :
    List RefSpecies → List (String × JVal) × List (String × JVal)
  | [] => (te, teAll)
  | sp :: rest =>
      match sp.occurrences with
      | none => buildTEAux te teAll rest
      | some l =>
          let p := buildOccAux [] [] l
          buildTEAux (aset te sp.id (JVal.obj p.1)) (aset teAll sp.id (JVal.obj p.2))
            rest

/-- The reference "present" index `occurrencesTE` as a `JVal` object. -/
def occurrencesTE (results : List RefSpecies) : JVal :=
  JVal.obj (buildTEAux [] [] results).1

/-- The reference "all statuses" index `occurrencesTEall` as a `JVal`
object. -/
def occurrencesTEall (results : List RefSpecies) : JVal :=
  JVal.obj (buildTEAux [] [] results).2

/-- Looking up one aggregated (species, province) group. -/
def alook2 (occ : Occurrences) (s a : String) : Option AggEntry :=
  match alook occ s with
  | some oc => alook oc a
  | none => none

/-- Well-formedness the ingestion maintains: distinct species keys, distinct
province keys per species, and no empty specimen list. -/
def WFOcc (occ : Occurrences) : Prop :=
  (occ.map Prod.fst).Nodup ∧
    ∀ p ∈ occ, (p.2.map Prod.fst).Nodup ∧ ∀ q ∈ p.2, q.2.specimens ≠ []

/-- Whether a gathered date counts as recent for filter 1: non-empty is
checked by the caller; the parsed year must be at least 1940. -/
def recentB (d : String) : Bool :=
  match yearOf d with
  | some y => decide (y ≥ 1940)
  | none => false

/-- The keep-predicate the staleness filter implements: keep unless the
status is historical and no non-empty gathered date is recent. -/
def keepB (line : TELine) : Bool :=
  !(historicalB line.occurrenceCode) ||
    line.gatheredDates.any (fun d => !(d == "") && recentB d)

/-- The date begins with four decimal digits. -/
def fourDigitB (d : String) : Bool :=
  ((d.data.take 4).length == 4) && (d.data.take 4).all Char.isDigit

/-- The concatenated results of `k` successive pages starting at `page`. -/
def pagesFrom (fetch : Nat → Page) : Nat → Nat → List JVal
  | _, 0 => []
  | page, k + 1 => (fetch page).results ++ pagesFrom fetch (page + 1) k

/-- Every value of the association list is an object all of whose values are
string leaves (the shape both Taxon Editor indexes always have). -/
def strValuedObjs (fs : List (String × JVal)) : Prop :=
  ∀ p ∈ fs, ∃ g, p.2 = JVal.obj g ∧ ∀ q ∈ g, ∃ st, q.2 = JVal.str st

/-- A fully populated raw specimen record: species `MX.1` (with the URI
prefix the script strips), province `ML.251`, a unit-level id `U1` and a
document id `D1`. -/
def rawBoth : JVal :=
  JVal.obj
    [("unit", JVal.obj
        [("linkings", JVal.obj
            [("taxon", JVal.obj
                [("id", JVal.str "http://tun.fi/MX.1"),
                 ("scientificName", JVal.str "Barbula unguiculata")])]),
         ("unitId", JVal.str "U1"),
         ("interpretations", JVal.obj [("reliability", JVal.str "RELIABLE")])]),
     ("document", JVal.obj
        [("documentId", JVal.str "D1"),
         ("modifiedDate", JVal.str "2020-06-01")]),
     ("gathering", JVal.obj
        [("interpretations", JVal.obj
            [("biogeographicalProvince", JVal.str "http://tun.fi/ML.251")]),
         ("eventDate", JVal.obj [("end", JVal.str "1985-05-01")])])]

/-- `rawBoth` with the `gathering` subtree (hence the biogeographical
province) missing. -/
def rawNoProv : JVal :=
  JVal.obj
    [("unit", JVal.obj
        [("linkings", JVal.obj
            [("taxon", JVal.obj
                [("id", JVal.str "http://tun.fi/MX.1"),
                 ("scientificName", JVal.str "Barbula unguiculata")])]),
         ("unitId", JVal.str "U1"),
         ("interpretations", JVal.obj [("reliability", JVal.str "RELIABLE")])]),
     ("document", JVal.obj
        [("documentId", JVal.str "D1"),
         ("modifiedDate", JVal.str "2020-06-01")])]

/-- A raw record with no resolvable species id at all. -/
def rawNoTaxon : JVal :=
  JVal.obj [("document", JVal.obj [("documentId", JVal.str "D9")])]

/-- First specimen of species `MX.8` in province `ML.251`, supplying the
display name `Name one`. -/
def rawN1 : JVal :=
  JVal.obj
    [("unit", JVal.obj
        [("linkings", JVal.obj
            [("taxon", JVal.obj
                [("id", JVal.str "MX.8"),
                 ("scientificName", JVal.str "Name one")])]),
         ("unitId", JVal.str "U81"),
         ("interpretations", JVal.obj [("reliability", JVal.str "RELIABLE")])]),
     ("document", JVal.obj
        [("documentId", JVal.str "D81"),
         ("modifiedDate", JVal.str "2020-01-01")]),
     ("gathering", JVal.obj
        [("interpretations", JVal.obj
            [("biogeographicalProvince", JVal.str "ML.251")]),
         ("eventDate", JVal.obj [("end", JVal.str "1985-05-01")])])]

/-- Second specimen of the same species and province, supplying the display
name `Name two` later than `rawN1`. -/
def rawN2 : JVal :=
  JVal.obj
    [("unit", JVal.obj
        [("linkings", JVal.obj
            [("taxon", JVal.obj
                [("id", JVal.str "MX.8"),
                 ("scientificName", JVal.str "Name two")])]),
         ("unitId", JVal.str "U82"),
         ("interpretations", JVal.obj [("reliability", JVal.str "RELIABLE")])]),
     ("document", JVal.obj
        [("documentId", JVal.str "D82"),
         ("modifiedDate", JVal.str "2021-01-01")]),
     ("gathering", JVal.obj
        [("interpretations", JVal.obj
            [("biogeographicalProvince", JVal.str "ML.251")]),
         ("eventDate", JVal.obj [("end", JVal.str "1990-05-01")])])]

/-- A country-query specimen of species `SP1` (page 1 of `fetchC`). -/
def rawCP1 : JVal :=
  JVal.obj
    [("unit", JVal.obj
        [("linkings", JVal.obj
            [("taxon", JVal.obj
                [("id", JVal.str "SP1"),
                 ("scientificName", JVal.str "First species")])]),
         ("interpretations", JVal.obj [("reliability", JVal.str "RELIABLE")])]),
     ("document", JVal.obj
        [("documentId", JVal.str "DC1"),
         ("modifiedDate", JVal.str "2020-01-01")])]

/-- A country-query specimen of species `SP2`, placed on page 2 of
`fetchC`. -/
def rawCP2 : JVal :=
  JVal.obj
    [("unit", JVal.obj
        [("linkings", JVal.obj
            [("taxon", JVal.obj
                [("id", JVal.str "SP2"),
                 ("scientificName", JVal.str "Second species")])]),
         ("interpretations", JVal.obj [("reliability", JVal.str "RELIABLE")])]),
     ("document", JVal.obj
        [("documentId", JVal.str "DC2"),
         ("modifiedDate", JVal.str "2021-01-01")])]

/-- A well-behaved two-page source: page 1 holds `rawCP1`, page 2 holds
`rawCP2`, every page reports its own number as `currentPage` and reports
`lastPage = 2`. -/
def fetchW : Nat → Page
  | p => { results := if p = 1 then [rawCP1] else if p = 2 then [rawCP2] else [],
           currentPage := (p : Int), lastPage := 2 }

/-- Output row with the later modification date but the later occurrence
code. -/
def rowA : OutLine :=
  { species := "http://tun.fi/MX.1", speciesName := "n1", province := "P",
    occurrenceCode := "MX.typeOfOccurrenceExtirpated", specimens := "a",
    modifiedDate := "2021-01-01", gatheredDate := "g", reliability := "r" }

/-- Output row with the earlier modification date but the earlier occurrence
code. -/
def rowB : OutLine :=
  { species := "http://tun.fi/MX.2", speciesName := "n2", province := "P",
    occurrenceCode := "MX.typeOfOccurrenceAnthropogenic",
    specimens := "b", modifiedDate := "2020-01-01", gatheredDate := "g",
    reliability := "r" }

/-- A historical-status row whose only gathered date does not begin with
four decimal digits. -/
def badLine : TELine :=
  { species := "MX.1", speciesName := "n", area := "ML.251",
    occurrenceCode := "MX.typeOfOccurrenceOldRecords", specimens := ["a"],
    modifiedDates := ["2020-01-01"], gatheredDates := ["abcd-05-01"],
    reliabilities := ["r"] }

/-- A historical-status row with one pre-1940 and one post-1940 date. -/
def mixedLine : TELine :=
  { species := "MX.1", speciesName := "n", area := "ML.251",
    occurrenceCode := "MX.typeOfOccurrenceOldRecords", specimens := ["a", "b"],
    modifiedDates := ["2020-01-01", "2019-01-01"],
    gatheredDates := ["1930-05-01", "1999-05-01"], reliabilities := ["r", "r"] }

/-- A small reference response: `MX.1` occurs in `ML.251` and is extirpated
in `ML.252`; `MX.2` has no `occurrences` field. -/
def refs0 : List RefSpecies :=
  [ { id := "MX.1", occurrences := some
        ([ { area := "ML.251", status := "MX.typeOfOccurrenceOccurs" },
           { area := "ML.252", status := "MX.typeOfOccurrenceExtirpated" } ]) },
    { id := "MX.2", occurrences := none } ]

/-- A province name table for the fixtures. -/
def provs0 : List (String × String) :=
  [("ML.251", "Uusimaa"), ("ML.252", "Varsinais-Suomi")]

/-- The extracted form of `rawN1` (species `MX.8`, province `ML.251`,
display name `Name one`). -/
def eN1 : ExtractedR :=
  { species := "MX.8", area := "ML.251", occurrenceCode := "",
    speciesName := "Name one",
    detail := { specimenID := "U81", modifiedDate := "2020-01-01",
                gatheredDate := "1985-05-01", reliability := "RELIABLE" } }

/-- A specimen of species `MX.1` in province `ML.252`, where the reference
status is extirpated (so `ML.252` is not in the species' "present" set). -/
def raw252 : JVal :=
  JVal.obj
    [("unit", JVal.obj
        [("linkings", JVal.obj
            [("taxon", JVal.obj
                [("id", JVal.str "http://tun.fi/MX.1"),
                 ("scientificName", JVal.str "Barbula unguiculata")])]),
         ("unitId", JVal.str "U2"),
         ("interpretations", JVal.obj [("reliability", JVal.str "RELIABLE")])]),
     ("document", JVal.obj
        [("documentId", JVal.str "D2"),
         ("modifiedDate", JVal.str "2021-02-02")]),
     ("gathering", JVal.obj
        [("interpretations", JVal.obj
            [("biogeographicalProvince", JVal.str "http://tun.fi/ML.252")]),
         ("eventDate", JVal.obj [("end", JVal.str "2000-07-01")])])]

/-- The aggregation that ingesting `[raw252]` against `refs0` produces. -/
def occ252 : Occurrences :=
  [("MX.1",
    [("ML.252",
      { occurrenceCode := "MX.typeOfOccurrenceExtirpated",
        speciesName := "Barbula unguiculata",
        specimens := [{ specimenID := "U2", modifiedDate := "2021-02-02",
                        gatheredDate := "2000-07-01",
                        reliability := "RELIABLE" }] })])]

/-- Splitting a lexicographic comparison of two cons cells. -/
theorem lexLtB_cons_iff {x y : Char} {xs ys : List Char} :
    lexLtB (x :: xs) (y :: ys) = true ↔ x < y ∨ (x = y ∧ lexLtB xs ys = true) := by
  by_cases h1 : x < y
  · simp [lexLtB, h1]
  · by_cases h2 : y < x
    · have hne : ¬ x = y := fun he => absurd (he ▸ h2) (lt_irrefl x)
      simp [lexLtB, h1, h2, hne]
    · have he : x = y := le_antisymm (not_lt.mp h2) (not_lt.mp h1)
      simp [lexLtB, h1, h2, he]

theorem lexLtB_irrefl : ∀ l : List Char, lexLtB l l = false
  | [] => rfl
  | c :: rest => by simp [lexLtB, lexLtB_irrefl rest]

theorem lexLtB_trans :
    ∀ {a b c : List Char}, lexLtB a b = true → lexLtB b c = true → lexLtB a c = true := by
  intro a
  induction a with
  | nil =>
    intro b c h1 h2
    cases b with
    | nil => exact h2
    | cons y ys =>
      cases c with
      | nil => simp [lexLtB] at h2
      | cons z zs => simp [lexLtB]
  | cons x xs ih =>
    intro b c h1 h2
    cases b with
    | nil => simp [lexLtB] at h1
    | cons y ys =>
      cases c with
      | nil => simp [lexLtB] at h2
      | cons z zs =>
        rw [lexLtB_cons_iff] at h1 h2 ⊢
        rcases h1 with h1 | ⟨h1e, h1t⟩
        · rcases h2 with h2 | ⟨h2e, h2t⟩
          · exact Or.inl (lt_trans h1 h2)
          · exact Or.inl (h2e ▸ h1)
        · rcases h2 with h2 | ⟨h2e, h2t⟩
          · exact Or.inl (h1e ▸ h2)
          · exact Or.inr ⟨h1e.trans h2e, ih h1t h2t⟩

theorem lexLtB_trichot : ∀ a b : List Char, lexLtB a b = true ∨ a = b ∨ lexLtB b a = true
  | [], [] => Or.inr (Or.inl rfl)
  | [], _ :: _ => Or.inl (by simp [lexLtB])
  | _ :: _, [] => Or.inr (Or.inr (by simp [lexLtB]))
  | x :: xs, y :: ys => by
    rcases lt_trichotomy x y with h | h | h
    · exact Or.inl (lexLtB_cons_iff.mpr (Or.inl h))
    · rcases lexLtB_trichot xs ys with ht | ht | ht
      · exact Or.inl (lexLtB_cons_iff.mpr (Or.inr ⟨h, ht⟩))
      · exact Or.inr (Or.inl (by rw [h, ht]))
      · exact Or.inr (Or.inr (lexLtB_cons_iff.mpr (Or.inr ⟨h.symm, ht⟩)))
    · exact Or.inr (Or.inr (lexLtB_cons_iff.mpr (Or.inl h)))

theorem lexLtB_asymm {a b : List Char} (h : lexLtB a b = true) : lexLtB b a = false := by
  by_contra hc
  have h2 : lexLtB b a = true := by
    cases he : lexLtB b a
    · exact absurd he hc
    · rfl
  have := lexLtB_trans h h2
  rw [lexLtB_irrefl] at this
  exact Bool.false_ne_true this

/-- Two strings with the same character data are equal. -/
theorem string_data_eq {a b : String} (h : a.data = b.data) : a = b := by
  cases a
  cases b
  congr 1

theorem keyLeB_total (x : List String) (rev : Bool) (i j : Nat) :
    keyLeB x rev i j = true ∨ keyLeB x rev j i = true := by
  have hd := lexLtB_trichot (x.getD i "").data (x.getD j "").data
  have hn := Nat.le_total i j
  cases rev <;>
    simp only [keyLeB, Bool.or_eq_true, Bool.and_eq_true, beq_iff_eq,
      decide_eq_true_eq]
  · rcases hd with h | h | h
    · exact Or.inl (Or.inl h)
    · have he := string_data_eq h
      rcases hn with hn | hn
      · exact Or.inl (Or.inr ⟨he, hn⟩)
      · exact Or.inr (Or.inr ⟨he.symm, hn⟩)
    · exact Or.inr (Or.inl h)
  · rcases hd with h | h | h
    · exact Or.inr (Or.inl h)
    · have he := string_data_eq h
      rcases hn with hn | hn
      · exact Or.inl (Or.inr ⟨he, hn⟩)
      · exact Or.inr (Or.inr ⟨he.symm, hn⟩)
    · exact Or.inl (Or.inl h)

theorem keyLeB_trans (x : List String) (rev : Bool) {i j k : Nat}
    (h1 : keyLeB x rev i j = true) (h2 : keyLeB x rev j k = true) :
    keyLeB x rev i k = true := by
  cases rev <;>
    simp only [keyLeB, Bool.or_eq_true, Bool.and_eq_true, beq_iff_eq,
      decide_eq_true_eq] at h1 h2 ⊢ <;>
    rcases h1 with h1 | ⟨h1e, h1n⟩ <;> rcases h2 with h2 | ⟨h2e, h2n⟩
  · exact Or.inl (lexLtB_trans h1 h2)
  · exact Or.inl (by rw [← h2e]; exact h1)
  · exact Or.inl (by rw [h1e]; exact h2)
  · exact Or.inr ⟨h1e.trans h2e, Nat.le_trans h1n h2n⟩
  · exact Or.inl (lexLtB_trans h2 h1)
  · exact Or.inl (by rw [h2e] at h1; exact h1)
  · exact Or.inl (by rw [← h1e] at h2; exact h2)
  · exact Or.inr ⟨h1e.trans h2e, Nat.le_trans h1n h2n⟩

/-- The index permutation computed by `order` is sorted by its comparison. -/
theorem order_sorted (x : List String) (rev : Bool) :
    List.Pairwise (fun i j => keyLeB x rev i j = true) (order x rev) := by
  haveI : IsTotal Nat (fun i j => keyLeB x rev i j = true) := ⟨keyLeB_total x rev⟩
  haveI : IsTrans Nat (fun i j => keyLeB x rev i j = true) :=
    ⟨fun _ _ _ h1 h2 => keyLeB_trans x rev h1 h2⟩
  exact List.sorted_insertionSort _ _

/-- The index list computed by `order` is a permutation of `range x.length`. -/
theorem order_perm (x : List String) (rev : Bool) :
    (order x rev).Perm (List.range x.length) :=
  List.perm_insertionSort _ _

theorem mem_order {x : List String} {rev : Bool} {i : Nat} :
    i ∈ order x rev ↔ i < x.length := by
  rw [(order_perm x rev).mem_iff, List.mem_range]

theorem order_nodup (x : List String) (rev : Bool) : (order x rev).Nodup :=
  (order_perm x rev).nodup_iff.mpr (List.nodup_range _)

theorem order_length (x : List String) (rev : Bool) :
    (order x rev).length = x.length := by
  rw [(order_perm x rev).length_eq, List.length_range]

/-- Indexing `range l.length` back into `l` gives `l` itself. -/
theorem map_getD_range {α : Type} [Inhabited α] (l : List α) :
    (List.range l.length).map (fun i => l.getD i default) = l := by
  apply List.ext_getElem
  · simp
  · intro i h1 h2
    rw [List.getElem_map]
    rw [List.getElem_range]
    exact List.getD_eq_getElem l default h2

/-- Applying a permutation of `range l.length` to `l` permutes `l`. -/
theorem sort_perm_of_perm_range {α : Type} [Inhabited α] (l : List α) (o : List Nat)
    (h : o.Perm (List.range l.length)) : (sort l o).Perm l := by
  have hm := h.map (fun i => l.getD i default)
  rw [map_getD_range] at hm
  exact hm

/-- Transport a pairwise property of the index list through `sort`. -/
theorem sort_pairwise {α : Type} [Inhabited α] {p : Nat → Nat → Prop}
    {s : α → α → Prop} (l : List α) (o : List Nat) (hp : o.Pairwise p)
    (himp : ∀ i ∈ o, ∀ j ∈ o, p i j → s (l.getD i default) (l.getD j default)) :
    (sort l o).Pairwise s := by
  unfold sort
  rw [List.pairwise_map]
  exact List.Pairwise.imp_of_mem (fun ha hb h => himp _ ha _ hb h) hp

/-- Entry `k` of a sorted list is the entry of the original at index `o.getD k 0`. -/
theorem sort_getD {α : Type} [Inhabited α] (l : List α) (o : List Nat) {k : Nat}
    (hk : k < o.length) : (sort l o).getD k default = l.getD (o.getD k 0) default := by
  unfold sort
  rw [List.getD_eq_getElem _ default (by simpa using hk), List.getElem_map,
    List.getD_eq_getElem o 0 hk]

theorem alook_aset_self {α : Type} (fs : List (String × α)) (k : String) (v : α) :
    alook (aset fs k v) k = some v := by
  induction fs with
  | nil => simp [aset, alook]
  | cons p rest ih =>
      obtain ⟨k2, w⟩ := p
      by_cases h : k2 = k
      · simp [aset, h, alook]
      · simp [aset, h, alook, ih]

theorem alook_aset_ne {α : Type} (fs : List (String × α)) (k k2 : String) (v : α)
    (h : k2 ≠ k) : alook (aset fs k v) k2 = alook fs k2 := by
  induction fs with
  | nil => simp [aset, alook, Ne.symm h]
  | cons p rest ih =>
      obtain ⟨k3, w⟩ := p
      by_cases h3 : k3 = k
      · subst h3
        simp [aset, alook, Ne.symm h]
      · simp only [aset, if_neg h3]
        by_cases h2 : k3 = k2
        · simp [alook, h2]
        · simp [alook, h2, ih]

theorem mem_aset_elim {α : Type} {fs : List (String × α)} {k : String} {v : α}
    {p : String × α} (h : p ∈ aset fs k v) : p = (k, v) ∨ p ∈ fs := by
  induction fs with
  | nil => simpa [aset] using h
  | cons q rest ih =>
      obtain ⟨k3, w⟩ := q
      by_cases h3 : k3 = k
      · simp only [aset, if_pos h3] at h
        rcases List.mem_cons.mp h with h | h
        · exact Or.inl h
        · exact Or.inr (List.mem_cons.mpr (Or.inr h))
      · simp only [aset, if_neg h3] at h
        rcases List.mem_cons.mp h with h | h
        · exact Or.inr (List.mem_cons.mpr (Or.inl h))
        · rcases ih h with h | h
          · exact Or.inl h
          · exact Or.inr (List.mem_cons.mpr (Or.inr h))

theorem aset_eq_append {α : Type} {fs : List (String × α)} {k : String} {v : α}
    (h : alook fs k = none) : aset fs k v = fs ++ [(k, v)] := by
  induction fs with
  | nil => simp [aset]
  | cons p rest ih =>
      obtain ⟨k2, w⟩ := p
      by_cases h2 : k2 = k
      · simp [alook, h2] at h
      · simp only [alook, if_neg h2] at h
        simp [aset, h2, ih h]

theorem aset_keys_eq {α : Type} {fs : List (String × α)} {k : String} {v w : α}
    (h : alook fs k = some w) : (aset fs k v).map Prod.fst = fs.map Prod.fst := by
  induction fs with
  | nil => simp [alook] at h
  | cons p rest ih =>
      obtain ⟨k2, u⟩ := p
      by_cases h2 : k2 = k
      · simp [aset, h2]
      · simp only [alook, if_neg h2] at h
        simp [aset, h2, ih h]

theorem alook_eq_none_iff {α : Type} {fs : List (String × α)} {k : String} :
    alook fs k = none ↔ k ∉ fs.map Prod.fst := by
  induction fs with
  | nil => simp [alook]
  | cons p rest ih =>
      obtain ⟨k2, w⟩ := p
      by_cases h2 : k2 = k
      · simp [alook, h2]
      · simp [alook, h2, ih, Ne.symm h2]

theorem alook_mem {α : Type} {fs : List (String × α)} {k : String} {v : α}
    (h : alook fs k = some v) : (k, v) ∈ fs := by
  induction fs with
  | nil => simp [alook] at h
  | cons p rest ih =>
      obtain ⟨k2, w⟩ := p
      by_cases h2 : k2 = k
      · simp only [alook, if_pos h2] at h
        subst h2
        have hw : w = v := Option.some.inj h
        exact List.mem_cons.mpr (Or.inl (by rw [hw]))
      · simp only [alook, if_neg h2] at h
        exact List.mem_cons.mpr (Or.inr (ih h))

theorem alook_of_mem_nodup {α : Type} {fs : List (String × α)} {k : String} {v : α}
    (hm : (k, v) ∈ fs) (hn : (fs.map Prod.fst).Nodup) : alook fs k = some v := by
  induction fs with
  | nil => simp at hm
  | cons p rest ih =>
      obtain ⟨k2, w⟩ := p
      simp only [List.map_cons, List.nodup_cons] at hn
      rcases List.mem_cons.mp hm with h | h
      · obtain ⟨h1, h2⟩ := Prod.mk.injEq .. ▸ h.symm
        simp [alook, h1.symm, h2]
      · have hk2 : k2 ≠ k := by
          intro he
          exact hn.1 (he ▸ List.mem_map.mpr ⟨(k, v), h, rfl⟩)
        simp [alook, hk2, ih h hn.2]

/-- C7: for the record `rawBoth`, which carries a unit-level identifier
`U1` (at `unit.unitId`) and a document identifier `D1`, the region-novelty
query records `U1` but the country-novelty query records `D1`: the two
queries do not resolve the same record to the same identifier, because the
country query probes `unit.linkings.unitId` instead of `unit.unitId`. -/
theorem C7_unit_id_divergence :
    exists_ rawBoth ["unit", "unitId"] = true ∧
    (extractRegionSpecimen (occurrencesTEall []) rawBoth).map
        (Option.map (fun e => e.detail.specimenID)) = some (some "U1") ∧
    (extractCountrySpecimen rawBoth).map
        (Option.map (fun e => e.detail.specimenID)) = some (some "D1") := by
  refine ⟨by decide, by decide, by decide⟩

/-- C2 counterexample: `rowA` has the strictly more recent modification
date, so under "primary key = most-recent modification date, descending"
it would come first; but the final sort puts `rowB` (whose occurrence code
is lexicographically smaller) first.  The occurrence code, not the
modification date, is the effective primary key. -/
theorem C2_counterexample :
    finalSortRegion [rowA, rowB] = [rowB, rowA] ∧
    sLt rowB.modifiedDate rowA.modifiedDate = true ∧
    sLt rowB.occurrenceCode rowA.occurrenceCode = true := by
  refine ⟨by decide, by decide, by decide⟩

/-- C8 counterexample: two specimens of the same species and province are
ingested, the first supplying display name `Name one`, the second (the one
that last supplied a name) `Name two`; the aggregated occurrence carries
`Name one`, the name supplied by the first specimen, not the last. -/
theorem C8_counterexample :
    (ingestResults (occurrencesTEall []) [] [rawN1, rawN2]).map
        (fun occ => (alook2 occ "MX.8" "ML.251").map (fun en => en.speciesName)) =
      some (some "Name one") ∧
    (extractRegionSpecimen (occurrencesTEall []) rawN2).map
        (Option.map (fun e => e.speciesName)) = some (some "Name two") := by
  refine ⟨by decide, by decide⟩

/-- C8 amended: the display name of an aggregated occurrence is the one
supplied by the first ingested specimen of its group: creating a
(species, province) group (or, on the country path, a species group)
records the creating specimen's name, and adding a further specimen to an
existing group never changes the recorded name. -/
theorem C8_amended :
    (∀ (occ : Occurrences) (e : ExtractedR),
        (alook2 occ e.species e.area = none →
          (alook2 (addSpecimen occ e) e.species e.area).map (fun en => en.speciesName) =
            some e.speciesName) ∧
        (∀ entry, alook2 occ e.species e.area = some entry →
          (alook2 (addSpecimen occ e) e.species e.area).map (fun en => en.speciesName) =
            some entry.speciesName)) ∧
    (∀ (m : List (String × FILine)) (e : ExtractedC),
        (alook m e.species = none →
          (alook (addFI m e) e.species).map (fun l => l.speciesName) =
            some e.speciesName) ∧
        (∀ line, alook m e.species = some line →
          (alook (addFI m e) e.species).map (fun l => l.speciesName) =
            some line.speciesName)) := by
  constructor
  · intro occ e
    constructor
    · intro h0
      cases ho : alook occ e.species with
      | none =>
          simp [addSpecimen, ho, alook2, alook_aset_self, alook]
      | some oc =>
          have ha : alook oc e.area = none := by
            simpa [alook2, ho] using h0
          simp [addSpecimen, ho, ha, alook2, alook_aset_self]
    · intro entry h0
      cases ho : alook occ e.species with
      | none => simp [alook2, ho] at h0
      | some oc =>
          have ha : alook oc e.area = some entry := by
            simpa [alook2, ho] using h0
          simp [addSpecimen, ho, ha, alook2, alook_aset_self]
  · intro m e
    constructor
    · intro h0
      simp [addFI, h0, alook_aset_self]
    · intro line h0
      simp [addFI, h0, alook_aset_self]

/-- Witness for `C8_amended` at a concrete group creation. -/
theorem C8_witness :
    (alook2 (addSpecimen [] eN1) "MX.8" "ML.251").map (fun en => en.speciesName) =
      some "Name one" :=
  (C8_amended.1 [] eN1).1 (by decide)

/-- A date beginning with four decimal digits always parses. -/
theorem yearOf_isSome_of_fourDigit {d : String} (h : fourDigitB d = true) :
    (yearOf d).isSome = true := by
  unfold fourDigitB at h
  rw [Bool.and_eq_true] at h
  obtain ⟨hlen, hdig⟩ := h
  unfold yearOf pyInt
  cases hl : d.data.take 4 with
  | nil => rw [hl] at hlen; simp at hlen
  | cons c rest =>
      rw [hl] at hdig
      have hc : c.isDigit = true :=
        List.all_eq_true.mp hdig c (List.mem_cons_self c rest)
      have hcm : ¬ c = '-' := by
        intro he
        subst he
        exact absurd hc (by decide)
      have hcp : ¬ c = '+' := by
        intro he
        subst he
        exact absurd hc (by decide)
      simp [hcm, hcp, natDigits, hdig]

/-- When every non-empty gathered date parses, the `recentYear` loop
computes exactly "some non-empty date is recent". -/
theorem recentYearLoop_eq {gds : List String}
    (h : ∀ d ∈ gds, ¬ d = "" → (yearOf d).isSome = true) :
    recentYearLoop gds = some (gds.any (fun d => !(d == "") && recentB d)) := by
  induction gds with
  | nil => rfl
  | cons d rest ih =>
      have hrest := ih (fun d2 hm he => h d2 (List.mem_cons.mpr (Or.inr hm)) he)
      by_cases hd : d = ""
      · subst hd
        simp [recentYearLoop, hrest]
      · have hy : (yearOf d).isSome = true := h d (List.mem_cons_self d rest) hd
        obtain ⟨y, hy2⟩ := Option.isSome_iff_exists.mp hy
        have hbe : (d == "") = false := by
          rw [beq_eq_false_iff_ne]
          exact hd
        simp [recentYearLoop, hbe, hy2, hrest, recentB, Bool.or_comm]

/-- When every non-empty gathered date parses, the `include` flag is the
keep-predicate. -/
theorem includeFlag_eq {line : TELine}
    (h : ∀ d ∈ line.gatheredDates, ¬ d = "" → (yearOf d).isSome = true) :
    includeFlag line = some (keepB line) := by
  unfold includeFlag keepB
  by_cases hh : historicalB line.occurrenceCode = true
  · rw [if_pos hh, recentYearLoop_eq h, hh]
    simp
  · rw [if_neg hh]
    rw [Bool.not_eq_true] at hh
    rw [hh]
    simp

/-- C10: the staleness filter parses a year only from non-empty gathered
dates, and for a record all of whose non-empty gathered dates begin with
four decimal digits it cannot fail; the precondition is needed: `badLine`
has a non-empty gathered date whose first four characters are not decimal
digits, and on it the year parse (hence the filter) fails. -/
theorem C10_year_parse_safety :
    (∀ line : TELine,
        (∀ d ∈ line.gatheredDates, ¬ d = "" → fourDigitB d = true) →
        (includeFlag line).isSome = true) ∧
    (badLine.gatheredDates.any (fun d => !(d == "") && !(fourDigitB d)) = true ∧
      includeFlag badLine = none) := by
  constructor
  · intro line h
    rw [includeFlag_eq (fun d hm he => yearOf_isSome_of_fourDigit (h d hm he))]
    rfl
  · exact ⟨by decide, by decide⟩

/-- Witness for `C10_year_parse_safety` at a concrete record whose dates
all begin with four digits. -/
theorem C10_witness : (includeFlag mixedLine).isSome = true :=
  C10_year_parse_safety.1 mixedLine (by decide)

/-- C3: when every non-empty gathered date parses (see
`C10_year_parse_safety` for that precondition), the region filter stage
keeps exactly the rows of the keep-predicate — a row is dropped iff its
status is one of the two historical codes and none of its non-empty
gathered dates has year at least 1940 — and the kept rows are the formatted
ones, in order; the country path applies no filter: its final output has
one row per `notinFI` species. -/
theorem C3_staleness_filter :
    (∀ (provinces : List (String × String)) (lines : List TELine),
        (∀ line ∈ lines, ∀ d ∈ line.gatheredDates, ¬ d = "" →
          (yearOf d).isSome = true) →
        regionStage provinces lines =
          (lines.filter keepB).mapM (formatLine provinces)) ∧
    (∀ m : List (String × FILine),
        (finalSortFI (countryStage m)).length = m.length) := by
  constructor
  · intro provinces lines h
    induction lines with
    | nil => rfl
    | cons line rest ih =>
        have hline : includeFlag line = some (keepB line) :=
          includeFlag_eq (fun d hm he => h line (List.mem_cons_self line rest) d hm he)
        have hrest := ih (fun l2 hm => h l2 (List.mem_cons.mpr (Or.inr hm)))
        cases hk : keepB line with
        | true =>
            have hfc : List.filter keepB (line :: rest) = line :: List.filter keepB rest := by
              simp [List.filter_cons, hk]
            rw [hfc, List.mapM_cons, ← hrest]
            simp [regionStage, hline, hk]
        | false =>
            have hfc : List.filter keepB (line :: rest) = List.filter keepB rest := by
              simp [List.filter_cons, hk]
            rw [hfc, ← hrest]
            simp [regionStage, hline, hk]
  · intro m
    simp [finalSortFI, sort, countryStage, order_length]

/-- Witness for `C3_staleness_filter` on a concrete row list. -/
theorem C3_witness :
    regionStage provs0 [mixedLine] =
      ([mixedLine].filter keepB).mapM (formatLine provs0) :=
  C3_staleness_filter.1 provs0 [mixedLine] (by decide)

/-- Ingesting a concatenation is ingesting the parts in sequence. -/
theorem ingestResults_append (teAll : JVal) (occ : Occurrences) (a b : List JVal) :
    ingestResults teAll occ (a ++ b) =
      match ingestResults teAll occ a with
      | none => none
      | some occ2 => ingestResults teAll occ2 b := by
  induction a generalizing occ with
  | nil => simp [ingestResults]
  | cons sp rest ih =>
      simp only [List.cons_append, ingestResults]
      cases extractRegionSpecimen teAll sp with
      | none => rfl
      | some o =>
          cases o with
          | none => exact ih occ
          | some e => exact ih (addSpecimen occ e)

/-- Behaviour of the region page loop: over a source that reports the
requested page as current page and a constant last page, the loop starting
at `page` with `page + k = L` ingests exactly pages `page, ..., L` in
order. -/
theorem pageLoop_eq (fetch : Nat → Page) (teAll : JVal) {L : Nat}
    (hc : ∀ p, (fetch p).currentPage = (p : Int))
    (hl : ∀ p, (fetch p).lastPage = (L : Int)) :
    ∀ (k page fuel : Nat) (occ : Occurrences), page + k = L → k < fuel →
      pageLoop fetch teAll fuel page occ =
        ingestResults teAll occ (pagesFrom fetch page (k + 1)) := by
  intro k
  induction k with
  | zero =>
      intro page fuel occ hpk hfuel
      cases fuel with
      | zero => omega
      | succ f =>
          simp only [pageLoop, pagesFrom, List.append_nil]
          cases hi : ingestResults teAll occ (fetch page).results with
          | none => rfl
          | some occ2 =>
              have hcond : (fetch page).currentPage ≥ (fetch page).lastPage := by
                rw [hc, hl]
                omega
              show (if (fetch page).currentPage ≥ (fetch page).lastPage then some occ2
                    else pageLoop fetch teAll f (page + 1) occ2) = some occ2
              rw [if_pos hcond]
  | succ k ih =>
      intro page fuel occ hpk hfuel
      cases fuel with
      | zero => omega
      | succ f =>
          simp only [pageLoop]
          have hnot : ¬ (fetch page).currentPage ≥ (fetch page).lastPage := by
            rw [hc, hl]
            omega
          rw [show pagesFrom fetch page (k + 1 + 1) =
                (fetch page).results ++ pagesFrom fetch (page + 1) (k + 1) from rfl]
          rw [ingestResults_append]
          cases hi : ingestResults teAll occ (fetch page).results with
          | none => rfl
          | some occ2 =>
              show (if (fetch page).currentPage ≥ (fetch page).lastPage then some occ2
                    else pageLoop fetch teAll f (page + 1) occ2) =
                  ingestResults teAll occ2 (pagesFrom fetch (page + 1) (k + 1))
              rw [if_neg hnot]
              exact ih (page + 1) f occ2 (by omega) (by omega)

/-- C9 amended: the region-novelty query pages from 1 and ingests every
page up to the reported last page, stopping exactly when the fetched page
reports `currentPage >= lastPage`; the country-novelty query performs a
single page-1 fetch, so its output depends only on page 1's results. -/
theorem C9_amended_pagination :
    (∀ (fetch : Nat → Page) (teAll : JVal) (L fuel : Nat),
        (∀ p, (fetch p).currentPage = (p : Int)) →
        (∀ p, (fetch p).lastPage = (L : Int)) →
        1 ≤ L → L ≤ fuel →
        pageLoop fetch teAll fuel 1 [] =
          ingestResults teAll [] (pagesFrom fetch 1 L)) ∧
    (∀ f g : Nat → Page, (f 1).results = (g 1).results →
        notinFIFromSource f = notinFIFromSource g) := by
  constructor
  · intro fetch teAll L fuel hc hl hL hfuel
    have h1 := pageLoop_eq fetch teAll hc hl (L - 1) 1 fuel [] (by omega) (by omega)
    have h2 : L - 1 + 1 = L := by omega
    rw [h2] at h1
    exact h1
  · intro f g h
    unfold notinFIFromSource
    rw [h]

/-- Witness for `C9_amended_pagination` on the concrete two-page source. -/
theorem C9_witness :
    pageLoop fetchW (occurrencesTEall []) 2 1 [] =
      ingestResults (occurrencesTEall []) [] (pagesFrom fetchW 1 2) :=
  C9_amended_pagination.1 fetchW (occurrencesTEall []) 2 2
    (fun _ => rfl) (fun _ => rfl) (by decide) (by decide)

/-- C9 counterexample: the two-page source `fetchW` reports `lastPage = 2`
and its page 2 holds exactly one record, of species `SP2`; yet the
country-novelty output (built from the single page-1 fetch) has no entry
for `SP2` — the country query does not page to `lastPage`.  (Species `SP1`
from page 1 is present.) -/
theorem C9_counterexample :
    (fetchW 1).lastPage = 2 ∧
    ((fetchW 2).results.map
        (fun sp => (extractCountrySpecimen sp).map (Option.map (fun e => e.species)))) =
      [some (some "SP2")] ∧
    (notinFIFromSource fetchW).map (fun m => (alook m "SP2").isSome) = some false ∧
    (notinFIFromSource fetchW).map (fun m => (alook m "SP1").isSome) = some true := by
  refine ⟨by decide, by decide, by decide, by decide⟩

theorem string_default : (default : String) = "" := rfl

/-- Under the descending comparison, the element placed earlier is not
lexicographically smaller. -/
theorem keyLe_true_desc {x : List String} {i j : Nat}
    (h : keyLeB x true i j = true) : sLt (x.getD i "") (x.getD j "") = false := by
  simp only [keyLeB, Bool.or_eq_true, Bool.and_eq_true, beq_iff_eq,
    decide_eq_true_eq] at h
  unfold sLt
  rcases h with h | ⟨he, _⟩
  · exact lexLtB_asymm h
  · rw [he]
    exact lexLtB_irrefl _

/-- Under the ascending comparison, the element placed later is not
lexicographically smaller. -/
theorem keyLe_false_asc {x : List String} {i j : Nat}
    (h : keyLeB x false i j = true) : sLt (x.getD j "") (x.getD i "") = false := by
  simp only [keyLeB, Bool.or_eq_true, Bool.and_eq_true, beq_iff_eq,
    decide_eq_true_eq] at h
  unfold sLt
  rcases h with h | ⟨he, _⟩
  · exact lexLtB_asymm h
  · rw [he]
    exact lexLtB_irrefl _

/-- The empty string is minimal for the comparison used by `order`. -/
theorem sLe_empty (s : String) : sLe "" s := by
  unfold sLe sLt
  show lexLtB s.data "".data = false
  cases s.data <;> rfl

/-- C6: within a record, `order` on the modification dates (descending)
yields one permutation of the index range: applied by `sort` it (a) makes
the modification dates non-increasing (lexicographic string comparison),
(b) rearranges every parallel equal-length sequence by that same
permutation, preserving lengths and per-index correspondence, and (c) is
stable — indices with equal dates stay in original ingestion order; and
(d) the empty string compares as earliest. -/
theorem C6_per_record_ordering (l5 : List String) :
    (order l5 true).Perm (List.range l5.length) ∧
    (sort l5 (order l5 true)).Pairwise (fun a b => sLe b a) ∧
    (∀ x : List String, x.length = l5.length →
        (sort x (order l5 true)).length = x.length ∧
        ∀ k, k < x.length →
          (sort x (order l5 true)).getD k "" =
            x.getD ((order l5 true).getD k 0) "") ∧
    (∀ k1 k2 : Nat, k1 < k2 → k2 < l5.length →
        l5.getD ((order l5 true).getD k1 0) "" =
          l5.getD ((order l5 true).getD k2 0) "" →
        (order l5 true).getD k1 0 < (order l5 true).getD k2 0) ∧
    (∀ s : String, sLe "" s) := by
  refine ⟨order_perm l5 true, ?_, ?_, ?_, sLe_empty⟩
  · apply sort_pairwise l5 (order l5 true) (order_sorted l5 true)
    intro i _ j _ hp
    show sLt (l5.getD i default) (l5.getD j default) = false
    rw [string_default]
    exact keyLe_true_desc hp
  · intro x hx
    have hlen : (order l5 true).length = l5.length := order_length l5 true
    constructor
    · unfold sort
      rw [List.length_map, hlen, hx]
    · intro k hk
      have hk2 : k < (order l5 true).length := by omega
      have := sort_getD x (order l5 true) hk2
      rw [string_default] at this
      exact this
  · intro k1 k2 hk12 hk2 heq
    have hlen : (order l5 true).length = l5.length := order_length l5 true
    have hk1o : k1 < (order l5 true).length := by omega
    have hk2o : k2 < (order l5 true).length := by omega
    have hp := List.pairwise_iff_getElem.mp (order_sorted l5 true) k1 k2 hk1o hk2o hk12
    have hne := List.pairwise_iff_getElem.mp (order_nodup l5 true) k1 k2 hk1o hk2o hk12
    rw [List.getD_eq_getElem _ 0 hk1o, List.getD_eq_getElem _ 0 hk2o] at heq ⊢
    simp only [keyLeB, Bool.or_eq_true, Bool.and_eq_true, beq_iff_eq,
      decide_eq_true_eq] at hp
    rcases hp with hp | ⟨_, hle⟩
    · rw [heq] at hp
      rw [lexLtB_irrefl] at hp
      exact absurd hp Bool.false_ne_true
    · exact lt_of_le_of_ne hle hne

/-- Witness for `C6_per_record_ordering`: per-index correspondence at a
concrete record. -/
theorem C6_witness :
    (sort ["a", "b"] (order ["2020-01-01", "2021-01-01"] true)).getD 0 "" =
      ["a", "b"].getD ((order ["2020-01-01", "2021-01-01"] true).getD 0 0) "" :=
  ((C6_per_record_ordering ["2020-01-01", "2021-01-01"]).2.2.1 ["a", "b"]
    (by decide)).2 0 (by decide)

/-- Indexing into a mapped list with the mapped default. -/
theorem map_getD {α β : Type} [Inhabited α] [Inhabited β] (f : α → β)
    (hd : f default = default) (l : List α) (i : Nat) :
    (l.map f).getD i default = f (l.getD i default) := by
  induction l generalizing i with
  | nil => simp [List.getD, hd]
  | cons a rest ih =>
      cases i with
      | zero => rfl
      | succ n => exact ih n

/-- C2 amended: the final region output is a permutation of its input rows
ordered with the reference occurrence status code as the effective primary
key (ascending lexicographic) and, within equal status codes, the
space-joined modification-date string descending. -/
theorem C2_amended_ordering (l : List OutLine) :
    (finalSortRegion l).Perm l ∧
    (finalSortRegion l).Pairwise (fun a b =>
        sLe a.occurrenceCode b.occurrenceCode ∧
        (a.occurrenceCode = b.occurrenceCode →
          sLe b.modifiedDate a.modifiedDate)) := by
  have hmd : (fun i : OutLine => i.modifiedDate) default = (default : String) := rfl
  have hoc : (fun i : OutLine => i.occurrenceCode) default = (default : String) := rfl
  set x1 := l.map (fun i => i.modifiedDate) with hx1
  set o1 := order x1 true with ho1
  set l2 := sort l o1 with hl2
  set x2 := l2.map (fun i => i.occurrenceCode) with hx2
  set o2 := order x2 false with ho2
  have hfin : finalSortRegion l = sort l2 o2 := rfl
  have hperm1 : l2.Perm l := by
    apply sort_perm_of_perm_range
    have := order_perm x1 true
    rw [hx1, List.length_map] at this
    exact this
  have hl2sorted : l2.Pairwise (fun a b => sLe b.modifiedDate a.modifiedDate) := by
    apply sort_pairwise l o1 (order_sorted x1 true)
    intro i _ j _ hp
    show sLt (l.getD i default).modifiedDate (l.getD j default).modifiedDate = false
    have h2 := keyLe_true_desc hp
    rw [hx1, string_default.symm, map_getD _ hmd, map_getD _ hmd] at h2
    exact h2
  have hperm2 : (sort l2 o2).Perm l2 := by
    apply sort_perm_of_perm_range
    have := order_perm x2 false
    rw [hx2, List.length_map] at this
    exact this
  refine ⟨hfin ▸ hperm2.trans hperm1, hfin ▸ ?_⟩
  apply sort_pairwise l2 o2 (order_sorted x2 false)
  intro i hi j hj hp
  have hib : i < l2.length := by
    have := mem_order.mp hi
    rw [hx2, List.length_map] at this
    exact this
  have hjb : j < l2.length := by
    have := mem_order.mp hj
    rw [hx2, List.length_map] at this
    exact this
  simp only [keyLeB, Bool.or_eq_true, Bool.and_eq_true, beq_iff_eq,
    decide_eq_true_eq] at hp
  have hxi : x2.getD i "" = (l2.getD i default).occurrenceCode := by
    rw [hx2, string_default.symm, map_getD _ hoc]
  have hxj : x2.getD j "" = (l2.getD j default).occurrenceCode := by
    rw [hx2, string_default.symm, map_getD _ hoc]
  rcases hp with hp | ⟨heq, hij⟩
  · rw [hxi, hxj] at hp
    constructor
    · show sLt (l2.getD j default).occurrenceCode
        (l2.getD i default).occurrenceCode = false
      exact lexLtB_asymm hp
    · intro he
      rw [he] at hp
      rw [lexLtB_irrefl] at hp
      exact absurd hp Bool.false_ne_true
  · rw [hxi, hxj] at heq
    constructor
    · show sLt (l2.getD j default).occurrenceCode
        (l2.getD i default).occurrenceCode = false
      unfold sLt
      rw [heq]
      exact lexLtB_irrefl _
    · intro _
      rcases Nat.lt_or_ge i j with hij2 | hij2
      · have hs := List.pairwise_iff_getElem.mp hl2sorted i j hib hjb hij2
        rw [List.getD_eq_getElem _ _ hib, List.getD_eq_getElem _ _ hjb]
        exact hs
      · have hieq : i = j := Nat.le_antisymm hij hij2
        subst hieq
        show sLt (l2.getD i default).modifiedDate
          (l2.getD i default).modifiedDate = false
        exact lexLtB_irrefl _

/-- When a path is absent, `check` yields the default. -/
theorem check_of_getPath_none {x : JVal} {keys : List String} {d : String}
    (h : getPath x keys = none) : check x keys d = JVal.str d := by
  induction keys generalizing x with
  | nil => simp [getPath] at h
  | cons k rest ih =>
      cases x with
      | str s => rfl
      | obj fs =>
          simp only [getPath] at h
          cases ha : alook fs k with
          | none => simp [check, ha]
          | some v =>
              rw [ha] at h
              simp [check, ha, ih h]

/-- When a path is present, `check` yields its value. -/
theorem check_of_getPath_some {x : JVal} {keys : List String} {d : String} {v : JVal}
    (h : getPath x keys = some v) : check x keys d = v := by
  induction keys generalizing x with
  | nil =>
      simp only [getPath] at h
      rw [check]
      exact Option.some.inj h
  | cons k rest ih =>
      cases x with
      | str s => simp [getPath] at h
      | obj fs =>
          simp only [getPath] at h
          cases ha : alook fs k with
          | none => rw [ha] at h; simp at h
          | some w =>
              rw [ha] at h
              simp [check, ha, ih h]

/-- The `exists` helper is path presence. -/
theorem exists_eq_isSome (x : JVal) (keys : List String) :
    exists_ x keys = (getPath x keys).isSome := by
  induction keys generalizing x with
  | nil => rfl
  | cons k rest ih =>
      cases x with
      | str s => rfl
      | obj fs =>
          simp only [exists_, getPath]
          cases ha : alook fs k with
          | none => rfl
          | some v => exact ih v

/-- Path drilling splits over concatenation. -/
theorem getPath_append (x : JVal) (a b : List String) :
    getPath x (a ++ b) = (getPath x a).bind (fun v => getPath v b) := by
  induction a generalizing x with
  | nil => simp [getPath]
  | cons k rest ih =>
      cases x with
      | str s => rfl
      | obj fs =>
          simp only [List.cons_append, getPath]
          cases ha : alook fs k with
          | none => rfl
          | some v => exact ih v

/-- A one-key `exists` probe is `jHasKey`. -/
theorem exists_single (v : JVal) (k : String) : exists_ v [k] = jHasKey v k := by
  cases v with
  | str s => rfl
  | obj fs =>
      simp only [exists_, jHasKey]
      cases alook fs k with
      | none => rfl
      | some w => rfl

/-- A two-key `exists` probe through a present first key. -/
theorem exists_two {sp v : JVal} {k1 k2 : String} (h : getPath sp [k1] = some v) :
    exists_ sp [k1, k2] = jHasKey v k2 := by
  cases sp with
  | str s => simp [getPath] at h
  | obj fs =>
      simp only [getPath] at h
      cases ha : alook fs k1 with
      | none => rw [ha] at h; simp at h
      | some w =>
          rw [ha] at h
          simp only [getPath] at h
          have hw : w = v := Option.some.inj h
          subst hw
          simp only [exists_, ha]
          exact exists_single w k2

/-- `buildOccAux` only ever stores string leaves. -/
theorem buildOccAux_str :
    ∀ (l : List RefOccurrence) (ocs ocsAll : List (String × JVal)),
      (∀ q ∈ ocs, ∃ st, q.2 = JVal.str st) →
      (∀ q ∈ ocsAll, ∃ st, q.2 = JVal.str st) →
      (∀ q ∈ (buildOccAux ocs ocsAll l).1, ∃ st, q.2 = JVal.str st) ∧
      (∀ q ∈ (buildOccAux ocs ocsAll l).2, ∃ st, q.2 = JVal.str st) := by
  intro l
  induction l with
  | nil => intro ocs ocsAll h1 h2; exact ⟨h1, h2⟩
  | cons i rest ih =>
      intro ocs ocsAll h1 h2
      apply ih
      · intro q hq
        by_cases hv : i.status ∈ occursStrings
        · simp only [buildOccAux, if_pos hv] at hq ⊢
          rcases mem_aset_elim hq with hq | hq
          · exact ⟨i.status, by rw [hq]⟩
          · exact h1 q hq
        · simp only [buildOccAux, if_neg hv] at hq ⊢
          exact h1 q hq
      · intro q hq
        rcases mem_aset_elim hq with hq | hq
        · exact ⟨i.status, by rw [hq]⟩
        · exact h2 q hq

/-- `buildTEAux` only ever stores objects of string leaves. -/
theorem buildTEAux_str :
    ∀ (results : List RefSpecies) (te teAll : List (String × JVal)),
      strValuedObjs te → strValuedObjs teAll →
      strValuedObjs (buildTEAux te teAll results).1 ∧
      strValuedObjs (buildTEAux te teAll results).2 := by
  intro results
  induction results with
  | nil => intro te teAll h1 h2; exact ⟨h1, h2⟩
  | cons sp rest ih =>
      intro te teAll h1 h2
      cases ho : sp.occurrences with
      | none => simpa [buildTEAux, ho] using ih te teAll h1 h2
      | some l =>
          simp only [buildTEAux, ho]
          have hb := buildOccAux_str l [] [] (by simp) (by simp)
          apply ih
          · intro p hp
            rcases mem_aset_elim hp with hp | hp
            · exact ⟨(buildOccAux [] [] l).1, by rw [hp], hb.1⟩
            · exact h1 p hp
          · intro p hp
            rcases mem_aset_elim hp with hp | hp
            · exact ⟨(buildOccAux [] [] l).2, by rw [hp], hb.2⟩
            · exact h2 p hp

/-- The occurrence-code lookup in `occurrencesTEall` always yields a
string. -/
theorem teAll_check_str (results : List RefSpecies) (s a : String) :
    ∃ st, asString (check (occurrencesTEall results) [s, a] "") = some st := by
  have hw := (buildTEAux_str results [] [] (by simp [strValuedObjs])
    (by simp [strValuedObjs])).2
  unfold occurrencesTEall
  show ∃ st, asString (check (JVal.obj (buildTEAux [] [] results).2) [s, a] "") = some st
  cases ha : alook (buildTEAux [] [] results).2 s with
  | none => exact ⟨"", by simp [check, ha, asString]⟩
  | some v =>
      obtain ⟨g, hg, hstr⟩ := hw (s, v) (alook_mem ha)
      simp only at hg
      subst hg
      cases hb : alook g a with
      | none => exact ⟨"", by simp [check, ha, hb, asString]⟩
      | some w =>
          obtain ⟨st, hst⟩ := hstr (a, w) (alook_mem hb)
          simp only at hst
          subst hst
          exact ⟨st, by simp [check, ha, hb, asString]⟩

/-- A successful string read pins the path's value. -/
theorem getPath_of_getStr {x : JVal} {p : List String} {s : String}
    (h : getStr x p = some s) : getPath x p = some (JVal.str s) := by
  unfold getStr at h
  cases hp : getPath x p with
  | none => rw [hp] at h; simp at h
  | some v =>
      rw [hp] at h
      cases v with
      | str t =>
          simp only [Option.some.injEq] at h
          rw [h]
      | obj g => simp at h

/-- C4 counterexample: `rawNoProv` passes the species-id guard but lacks
the `gathering` subtree, so the direct subscript of the biogeographical
province raises and the run fails (`none`), although the claim says every
field access goes through the existence-checked lookup and no missing
field is fatal. -/
theorem C4_counterexample :
    extractRegionSpecimen (occurrencesTEall []) rawNoProv = none := by decide

/-- C4 amended: a record with no resolvable species id is skipped, never
fatal; a record that passes the species guard and carries the
directly-subscripted fields (province, scientific name, reliability, and
the resolved identifier) is always processed — the modification and
gathered dates go through the checked lookup and may be missing
entirely. -/
theorem C4_amended_partial_records :
    (∀ (results : List RefSpecies) (sp : JVal),
        exists_ sp ["unit", "linkings", "taxon", "id"] = false →
        extractRegionSpecimen (occurrencesTEall results) sp = some none) ∧
    (∀ (results : List RefSpecies) (sp : JVal) (idv a nm rel : String),
        getStr sp ["unit", "linkings", "taxon", "id"] = some idv →
        getStr sp ["gathering", "interpretations", "biogeographicalProvince"] =
          some a →
        getStr sp ["unit", "linkings", "taxon", "scientificName"] = some nm →
        (exists_ sp ["unit", "unitId"] = true →
          ∃ u, getStr sp ["unit", "unitId"] = some u) →
        (exists_ sp ["unit", "unitId"] = false →
          ∃ dd, getStr sp ["document", "documentId"] = some dd) →
        (asString (check sp ["document", "modifiedDate"] "")).isSome = true →
        (asString (check sp ["gathering", "eventDate", "end"] "")).isSome = true →
        getStr sp ["unit", "interpretations", "reliability"] = some rel →
        ∃ e, extractRegionSpecimen (occurrencesTEall results) sp = some (some e)) := by
  refine ⟨?_, ?_⟩
  · intro results sp h
    simp [extractRegionSpecimen, h]
  · intro results sp idv a nm rel h1 h2 h3 h4 h5 h6 h7 h8
    have hguard : exists_ sp ["unit", "linkings", "taxon", "id"] = true := by
      rw [exists_eq_isSome, getPath_of_getStr h1]
      rfl
    obtain ⟨unitV, hunit, _⟩ := Option.bind_eq_some.mp
      (by rw [← getPath_append sp ["unit"] ["linkings", "taxon", "id"]]
          exact getPath_of_getStr h1)
    obtain ⟨c, hc⟩ := teAll_check_str results (pyReplace idv "http://tun.fi/" "")
      (pyReplace a "http://tun.fi/" "")
    obtain ⟨md, hmd⟩ := Option.isSome_iff_exists.mp h6
    obtain ⟨gd, hgd⟩ := Option.isSome_iff_exists.mp h7
    have hs : (extractFieldsR (occurrencesTEall results) sp).isSome = true := by
      cases hu : jHasKey unitV "unitId" with
      | true =>
          obtain ⟨u, hu2⟩ := h4 (by rw [exists_two hunit, hu])
          simp [extractFieldsR, h1, h2, h3, h8, hc, hmd, hgd, hunit, hu, hu2]
      | false =>
          obtain ⟨dd, hd2⟩ := h5 (by rw [exists_two hunit, hu])
          simp [extractFieldsR, h1, h2, h3, h8, hc, hmd, hgd, hunit, hu, hd2]
    obtain ⟨e, he⟩ := Option.isSome_iff_exists.mp hs
    exact ⟨e, by simp [extractRegionSpecimen, hguard, he]⟩

/-- Witness for `C4_amended_partial_records`: the skip case on a record
with no species id, and the success case on a record whose checked-lookup
dates are present. -/
theorem C4_witness :
    extractRegionSpecimen (occurrencesTEall []) rawNoTaxon = some none ∧
    ∃ e, extractRegionSpecimen (occurrencesTEall []) rawBoth = some (some e) :=
  ⟨C4_amended_partial_records.1 [] rawNoTaxon (by decide),
   C4_amended_partial_records.2 [] rawBoth "http://tun.fi/MX.1"
     "http://tun.fi/ML.251" "Barbula unguiculata" "RELIABLE"
     (by decide) (by decide) (by decide)
     (fun _ => ⟨"U1", by decide⟩)
     (fun h => absurd h (by decide))
     (by decide) (by decide) (by decide)⟩

/-- Behaviour of the per-species `ocs`/`ocsAll` loop on province lists with
distinct areas: untouched areas keep their accumulator value; an area of
the list gets its status in `ocsAll`, and in `ocs` exactly when the status
is in the confirmed-occurrence vocabulary. -/
theorem buildOccAux_alook :
    ∀ (l : List RefOccurrence), (l.map RefOccurrence.area).Nodup →
    ∀ (ocs ocsAll : List (String × JVal)) (a : String),
      (a ∉ l.map RefOccurrence.area →
        alook (buildOccAux ocs ocsAll l).1 a = alook ocs a ∧
        alook (buildOccAux ocs ocsAll l).2 a = alook ocsAll a) ∧
      (∀ st : String, (⟨a, st⟩ : RefOccurrence) ∈ l →
        alook (buildOccAux ocs ocsAll l).2 a = some (JVal.str st) ∧
        (st ∈ occursStrings →
          alook (buildOccAux ocs ocsAll l).1 a = some (JVal.str st)) ∧
        (st ∉ occursStrings →
          alook (buildOccAux ocs ocsAll l).1 a = alook ocs a)) := by
  intro l
  induction l with
  | nil =>
      intro _ ocs ocsAll a
      exact ⟨fun _ => ⟨rfl, rfl⟩, fun st hst => absurd hst (List.not_mem_nil _)⟩
  | cons i rest ih =>
      intro hnd ocs ocsAll a
      simp only [List.map_cons, List.nodup_cons] at hnd
      obtain ⟨hni, hnd2⟩ := hnd
      constructor
      · intro hna
        simp only [List.map_cons, List.mem_cons, not_or] at hna
        obtain ⟨hne, hna2⟩ := hna
        have hrec := (ih hnd2
          (if i.status ∈ occursStrings then aset ocs i.area (JVal.str i.status)
            else ocs)
          (aset ocsAll i.area (JVal.str i.status)) a).1 hna2
        simp only [buildOccAux]
        refine ⟨?_, ?_⟩
        · rw [hrec.1]
          by_cases hv : i.status ∈ occursStrings
          · rw [if_pos hv, alook_aset_ne _ _ _ _ hne]
          · rw [if_neg hv]
        · rw [hrec.2, alook_aset_ne _ _ _ _ hne]
      · intro st hst
        rcases List.mem_cons.mp hst with hst | hst
        · have ha : a = i.area := congrArg RefOccurrence.area hst
          have hs : st = i.status := congrArg RefOccurrence.status hst
          subst ha
          subst hs
          have hrec := (ih hnd2
            (if i.status ∈ occursStrings then aset ocs i.area (JVal.str i.status)
              else ocs)
            (aset ocsAll i.area (JVal.str i.status)) i.area).1 hni
          simp only [buildOccAux]
          refine ⟨?_, ?_, ?_⟩
          · rw [hrec.2, alook_aset_self]
          · intro hv
            rw [hrec.1, if_pos hv, alook_aset_self]
          · intro hv
            rw [hrec.1, if_neg hv]
        · have hamem : a ∈ rest.map RefOccurrence.area :=
            List.mem_map.mpr ⟨⟨a, st⟩, hst, rfl⟩
          have hne : ¬ a = i.area := fun he => hni (he ▸ hamem)
          have hrec := (ih hnd2
            (if i.status ∈ occursStrings then aset ocs i.area (JVal.str i.status)
              else ocs)
            (aset ocsAll i.area (JVal.str i.status)) a).2 st hst
          simp only [buildOccAux]
          refine ⟨hrec.1, hrec.2.1, ?_⟩
          · intro hv
            rw [hrec.2.2 hv]
            by_cases hv2 : i.status ∈ occursStrings
            · rw [if_pos hv2, alook_aset_ne _ _ _ _ hne]
            · rw [if_neg hv2]

/-- Species not in the remaining reference results keep their accumulator
entry. -/
theorem buildTEAux_frame :
    ∀ (results : List RefSpecies) (te teAll : List (String × JVal)) (k : String),
      k ∉ results.map RefSpecies.id →
      alook (buildTEAux te teAll results).1 k = alook te k ∧
      alook (buildTEAux te teAll results).2 k = alook teAll k := by
  intro results
  induction results with
  | nil => intro te teAll k _; exact ⟨rfl, rfl⟩
  | cons sp rest ih =>
      intro te teAll k hk
      simp only [List.map_cons, List.mem_cons, not_or] at hk
      obtain ⟨hk1, hk2⟩ := hk
      cases ho : sp.occurrences with
      | none => simpa [buildTEAux, ho] using ih te teAll k hk2
      | some l =>
          simp only [buildTEAux, ho]
          have := ih (aset te sp.id (JVal.obj (buildOccAux [] [] l).1))
            (aset teAll sp.id (JVal.obj (buildOccAux [] [] l).2)) k hk2
          rw [this.1, this.2, alook_aset_ne _ _ _ _ hk1,
            alook_aset_ne _ _ _ _ hk1]
          exact ⟨rfl, rfl⟩

/-- Looking up a species with reference occurrences in the built indexes. -/
theorem buildTEAux_alook :
    ∀ (results : List RefSpecies), (results.map RefSpecies.id).Nodup →
    ∀ (te teAll : List (String × JVal)) (sp : RefSpecies), sp ∈ results →
    ∀ (l : List RefOccurrence), sp.occurrences = some l →
      alook (buildTEAux te teAll results).1 sp.id =
        some (JVal.obj (buildOccAux [] [] l).1) ∧
      alook (buildTEAux te teAll results).2 sp.id =
        some (JVal.obj (buildOccAux [] [] l).2) := by
  intro results
  induction results with
  | nil => intro _ te teAll sp hsp; exact absurd hsp (List.not_mem_nil _)
  | cons sp2 rest ih =>
      intro hnd te teAll sp hsp l hocc
      simp only [List.map_cons, List.nodup_cons] at hnd
      obtain ⟨hn1, hn2⟩ := hnd
      rcases List.mem_cons.mp hsp with hsp | hsp
      · subst hsp
        simp only [buildTEAux, hocc]
        have hfr := buildTEAux_frame rest
          (aset te sp.id (JVal.obj (buildOccAux [] [] l).1))
          (aset teAll sp.id (JVal.obj (buildOccAux [] [] l).2)) sp.id hn1
        rw [hfr.1, hfr.2, alook_aset_self, alook_aset_self]
        exact ⟨rfl, rfl⟩
      · cases ho : sp2.occurrences with
        | none => simpa [buildTEAux, ho] using ih hn2 te teAll sp hsp l hocc
        | some l2 =>
            simp only [buildTEAux, ho]
            exact ih hn2 _ _ sp hsp l hocc

/-- C5: for a species with reference records (ids distinct across the
response, areas distinct within the species), the built "present" index
maps the species to exactly those of its regions whose status is in the
confirmed-occurrence vocabulary (with that status as value), and the "all"
index maps it to every region of its reference records with its status. -/
theorem C5_reference_index (results : List RefSpecies)
    (hids : (results.map RefSpecies.id).Nodup)
    (sp : RefSpecies) (hsp : sp ∈ results) (l : List RefOccurrence)
    (hocc : sp.occurrences = some l)
    (hareas : (l.map RefOccurrence.area).Nodup) :
    ∃ fs fsAll : List (String × JVal),
      jHasKey (occurrencesTE results) sp.id = true ∧
      jIndex (occurrencesTE results) sp.id = JVal.obj fs ∧
      jIndex (occurrencesTEall results) sp.id = JVal.obj fsAll ∧
      (∀ (a : String) (v : JVal),
          alook fs a = some v ↔
            ∃ st, v = JVal.str st ∧ (⟨a, st⟩ : RefOccurrence) ∈ l ∧
              st ∈ occursStrings) ∧
      (∀ (a : String) (v : JVal),
          alook fsAll a = some v ↔
            ∃ st, v = JVal.str st ∧ (⟨a, st⟩ : RefOccurrence) ∈ l) := by
  have hm := buildTEAux_alook results hids [] [] sp hsp l hocc
  refine ⟨(buildOccAux [] [] l).1, (buildOccAux [] [] l).2, ?_, ?_, ?_, ?_, ?_⟩
  · simp [occurrencesTE, jHasKey, hm.1]
  · simp [occurrencesTE, jIndex, hm.1]
  · simp [occurrencesTEall, jIndex, hm.2]
  · intro a v
    constructor
    · intro hv
      by_cases hna : a ∈ l.map RefOccurrence.area
      · obtain ⟨r, hr, hra⟩ := List.mem_map.mp hna
        have hrl : (⟨a, r.status⟩ : RefOccurrence) ∈ l := by
          have : r = ⟨a, r.status⟩ := by
            cases r
            simp only at hra
            rw [hra]
          rw [← this]
          exact hr
        have hrec := (buildOccAux_alook l hareas [] [] a).2 r.status hrl
        by_cases hvv : r.status ∈ occursStrings
        · rw [hrec.2.1 hvv] at hv
          exact ⟨r.status, (Option.some.inj hv).symm, hrl, hvv⟩
        · rw [hrec.2.2 hvv] at hv
          simp [alook] at hv
      · rw [((buildOccAux_alook l hareas [] [] a).1 hna).1] at hv
        simp [alook] at hv
    · intro ⟨st, hvs, hmem, hvoc⟩
      subst hvs
      exact ((buildOccAux_alook l hareas [] [] a).2 st hmem).2.1 hvoc
  · intro a v
    constructor
    · intro hv
      by_cases hna : a ∈ l.map RefOccurrence.area
      · obtain ⟨r, hr, hra⟩ := List.mem_map.mp hna
        have hrl : (⟨a, r.status⟩ : RefOccurrence) ∈ l := by
          have : r = ⟨a, r.status⟩ := by
            cases r
            simp only at hra
            rw [hra]
          rw [← this]
          exact hr
        have hrec := (buildOccAux_alook l hareas [] [] a).2 r.status hrl
        rw [hrec.1] at hv
        exact ⟨r.status, (Option.some.inj hv).symm, hrl⟩
      · rw [((buildOccAux_alook l hareas [] [] a).1 hna).2] at hv
        simp [alook] at hv
    · intro ⟨st, hvs, hmem⟩
      subst hvs
      exact ((buildOccAux_alook l hareas [] [] a).2 st hmem).1

/-- Witness for `C5_reference_index` on the concrete reference response. -/
theorem C5_witness : jHasKey (occurrencesTE refs0) "MX.1" = true := by
  obtain ⟨fs, fsAll, h1, h2, h3, h4, h5⟩ :=
    C5_reference_index refs0 (by decide)
      { id := "MX.1", occurrences := some
          ([ { area := "ML.251", status := "MX.typeOfOccurrenceOccurs" },
             { area := "ML.252", status := "MX.typeOfOccurrenceExtirpated" } ]) }
      (by decide) _ rfl (by decide)
  exact h1

theorem WFOcc_nil : WFOcc [] := by
  constructor
  · simp
  · intro p hp
    exact absurd hp (List.not_mem_nil _)

/-- One ingestion step preserves the aggregation invariant. -/
theorem WFOcc_addSpecimen {occ : Occurrences} (e : ExtractedR) (h : WFOcc occ) :
    WFOcc (addSpecimen occ e) := by
  obtain ⟨hkeys, hmem⟩ := h
  cases ho : alook occ e.species with
  | none =>
      have happ := aset_eq_append (v :=
        [(e.area, { occurrenceCode := e.occurrenceCode,
                    speciesName := e.speciesName, specimens := [e.detail] })]) ho
      constructor
      · simp only [addSpecimen, ho, happ, List.map_append, List.map_cons,
          List.map_nil]
        rw [List.nodup_append]
        refine ⟨hkeys, List.nodup_singleton _, ?_⟩
        intro k hk hk2
        simp only [List.mem_singleton] at hk2
        subst hk2
        exact (alook_eq_none_iff.mp ho) hk
      · intro p hp
        simp only [addSpecimen, ho, happ] at hp
        rcases List.mem_append.mp hp with hp | hp
        · exact hmem p hp
        · simp only [List.mem_singleton] at hp
          subst hp
          refine ⟨by simp, ?_⟩
          intro q hq
          simp only [List.mem_singleton] at hq
          subst hq
          simp
  | some oc =>
      have hocm : (e.species, oc) ∈ occ := alook_mem ho
      obtain ⟨hocnd, hocmem⟩ := hmem (e.species, oc) hocm
      cases ha : alook oc e.area with
      | none =>
          have happ := aset_eq_append (v :=
            { occurrenceCode := e.occurrenceCode, speciesName := e.speciesName,
              specimens := [e.detail] }) ha
          constructor
          · simp only [addSpecimen, ho, ha]
            rw [aset_keys_eq ho]
            exact hkeys
          · intro p hp
            simp only [addSpecimen, ho, ha] at hp
            rcases mem_aset_elim hp with hp | hp
            · subst hp
              constructor
              · simp only [happ, List.map_append, List.map_cons, List.map_nil]
                rw [List.nodup_append]
                refine ⟨hocnd, List.nodup_singleton _, ?_⟩
                intro k hk hk2
                simp only [List.mem_singleton] at hk2
                subst hk2
                exact (alook_eq_none_iff.mp ha) hk
              · intro q hq
                simp only [happ] at hq
                rcases List.mem_append.mp hq with hq | hq
                · exact hocmem q hq
                · simp only [List.mem_singleton] at hq
                  subst hq
                  simp
            · exact hmem p hp
      | some entry =>
          constructor
          · simp only [addSpecimen, ho, ha]
            rw [aset_keys_eq ho]
            exact hkeys
          · intro p hp
            simp only [addSpecimen, ho, ha] at hp
            rcases mem_aset_elim hp with hp | hp
            · subst hp
              constructor
              · rw [aset_keys_eq ha]
                exact hocnd
              · intro q hq
                rcases mem_aset_elim hq with hq | hq
                · subst hq
                  simp
                · exact hocmem q hq
            · exact hmem p hp

/-- Ingestion preserves the aggregation invariant. -/
theorem WFOcc_ingest {teAll : JVal} :
    ∀ (raws : List JVal) (occ occ2 : Occurrences),
      ingestResults teAll occ raws = some occ2 → WFOcc occ → WFOcc occ2 := by
  intro raws
  induction raws with
  | nil =>
      intro occ occ2 h hw
      simp only [ingestResults, Option.some.injEq] at h
      rw [← h]
      exact hw
  | cons sp rest ih =>
      intro occ occ2 h hw
      simp only [ingestResults] at h
      cases he : extractRegionSpecimen teAll sp with
      | none => rw [he] at h; simp at h
      | some o =>
          rw [he] at h
          cases o with
          | none => exact ih occ occ2 h hw
          | some e => exact ih (addSpecimen occ e) occ2 h (WFOcc_addSpecimen e hw)

/-- Membership in the inner `notinTE` loop: one row per aggregated province
that is not among the species' "present" provinces. -/
theorem mem_areasLines {te : JVal} {sp : String} :
    ∀ (areas : List (String × AggEntry)) (line : TELine),
      line ∈ areasLines te sp areas ↔
        ∃ area entry, (area, entry) ∈ areas ∧
          jHasKey (jIndex te sp) area = false ∧ line = mkLine sp area entry := by
  intro areas
  induction areas with
  | nil => intro line; simp [areasLines]
  | cons p rest ih =>
      obtain ⟨a2, en⟩ := p
      intro line
      simp only [areasLines, List.mem_append]
      by_cases hj : jHasKey (jIndex te sp) a2 = true
      · rw [if_pos hj]
        constructor
        · intro hm
          rcases hm with hm | hm
          · exact absurd hm (List.not_mem_nil _)
          · obtain ⟨area, entry, h1, h2, h3⟩ := (ih line).mp hm
            exact ⟨area, entry, List.mem_cons.mpr (Or.inr h1), h2, h3⟩
        · rintro ⟨area, entry, hm, hfalse, heq⟩
          rcases List.mem_cons.mp hm with hm | hm
          · cases hm
            rw [hj] at hfalse
            exact absurd hfalse (by simp)
          · exact Or.inr ((ih line).mpr ⟨area, entry, hm, hfalse, heq⟩)
      · have hjf : jHasKey (jIndex te sp) a2 = false := by
          revert hj
          cases jHasKey (jIndex te sp) a2 <;> simp
        rw [if_neg hj]
        constructor
        · intro hm
          rcases hm with hm | hm
          · simp only [List.mem_singleton] at hm
            exact ⟨a2, en, List.mem_cons_self (a2, en) rest, hjf, hm⟩
          · obtain ⟨area, entry, h1, h2, h3⟩ := (ih line).mp hm
            exact ⟨area, entry, List.mem_cons.mpr (Or.inr h1), h2, h3⟩
        · rintro ⟨area, entry, hm, hfalse, heq⟩
          rcases List.mem_cons.mp hm with hm | hm
          · cases hm
            exact Or.inl (by simp [heq])
          · exact Or.inr ((ih line).mpr ⟨area, entry, hm, hfalse, heq⟩)

/-- Membership in `notinTE`: a `(species, province)` pair yields a row iff
the species is aggregated and in the reference index and the province is
aggregated for it but not among its "present" provinces. -/
theorem mem_notinTELines {te : JVal} :
    ∀ (occ : Occurrences), WFOcc occ → ∀ S R : String,
      (∃ line ∈ notinTELines te occ, line.species = S ∧ line.area = R) ↔
        (jHasKey te S = true ∧
          ∃ areas, alook occ S = some areas ∧
            ∃ entry, alook areas R = some entry ∧
              jHasKey (jIndex te S) R = false) := by
  intro occ
  induction occ with
  | nil =>
      intro _ S R
      simp [notinTELines, alook]
  | cons p rest ih =>
      obtain ⟨sp, areas0⟩ := p
      intro hwf S R
      obtain ⟨hkeys, hmem⟩ := hwf
      simp only [List.map_cons, List.nodup_cons] at hkeys
      obtain ⟨hnk, hkrest⟩ := hkeys
      have hwfrest : WFOcc rest :=
        ⟨hkrest, fun q hq => hmem q (List.mem_cons.mpr (Or.inr hq))⟩
      have hihr := ih hwfrest S R
      obtain ⟨hnd0, _⟩ := hmem (sp, areas0) (List.mem_cons_self (sp, areas0) rest)
      constructor
      · rintro ⟨line, hline, hS, hR⟩
        simp only [notinTELines, List.mem_append] at hline
        rcases hline with hline | hline
        · by_cases hsp : jHasKey te sp = true
          · rw [if_pos hsp] at hline
            obtain ⟨area, entry, hm, hfalse, heq⟩ :=
              (mem_areasLines areas0 line).mp hline
            have hS2 : S = sp := by
              rw [← hS, heq]
              rfl
            have hR2 : R = area := by
              rw [← hR, heq]
              rfl
            subst hS2
            subst hR2
            refine ⟨hsp, areas0, by simp [alook], entry, ?_, hfalse⟩
            exact alook_of_mem_nodup hm hnd0
          · rw [if_neg hsp] at hline
            exact absurd hline (List.not_mem_nil _)
        · obtain ⟨hkey, areas, hal, entry, hae, hfalse⟩ :=
            hihr.mp ⟨line, hline, hS, hR⟩
          have hSne : ¬ sp = S := by
            intro he
            subst he
            exact hnk (List.mem_map.mpr ⟨(sp, areas), alook_mem hal, rfl⟩)
          refine ⟨hkey, areas, ?_, entry, hae, hfalse⟩
          simp [alook, hSne, hal]
      · rintro ⟨hkey, areas, hal, entry, hae, hfalse⟩
        by_cases hspS : sp = S
        · subst hspS
          have haeq : areas = areas0 := by
            have h0 : alook ((sp, areas0) :: rest) sp = some areas0 := by
              simp [alook]
            rw [h0] at hal
            exact (Option.some.inj hal).symm
          subst haeq
          refine ⟨mkLine sp R entry, ?_, rfl, rfl⟩
          simp only [notinTELines, List.mem_append]
          left
          rw [if_pos hkey]
          exact (mem_areasLines areas _).mpr ⟨R, entry, alook_mem hae, hfalse, rfl⟩
        · have hal2 : alook rest S = some areas := by
            simpa [alook, hspS] using hal
          obtain ⟨line, hline, hS, hR⟩ :=
            hihr.mpr ⟨hkey, areas, hal2, entry, hae, hfalse⟩
          refine ⟨line, ?_, hS, hR⟩
          simp only [notinTELines, List.mem_append]
          exact Or.inr hline

/-- C1: for an aggregation obtained by ingesting any specimen list, a
`(species, region)` pair appears among the `notinTE` rows iff the
aggregation holds at least one specimen for the pair, the species is a key
of the reference index, and the region is not in the species' "present"
set. -/
theorem C1_region_novelty (te teAll : JVal) (raws : List JVal) (occ : Occurrences)
    (hing : ingestResults teAll [] raws = some occ) (S R : String) :
    (∃ line ∈ notinTELines te occ, line.species = S ∧ line.area = R) ↔
      ((∃ entry, alook2 occ S R = some entry ∧ entry.specimens ≠ []) ∧
        jHasKey te S = true ∧ jHasKey (jIndex te S) R = false) := by
  have hwf := WFOcc_ingest raws [] occ hing WFOcc_nil
  rw [mem_notinTELines occ hwf S R]
  constructor
  · rintro ⟨hkey, areas, hal, entry, hae, hfalse⟩
    refine ⟨⟨entry, ?_, ?_⟩, hkey, hfalse⟩
    · simp [alook2, hal, hae]
    · exact (hwf.2 (S, areas) (alook_mem hal)).2 (R, entry) (alook_mem hae)
  · rintro ⟨⟨entry, hae, _⟩, hkey, hfalse⟩
    cases hal : alook occ S with
    | none =>
        rw [alook2, hal] at hae
        simp at hae
    | some areas =>
        have hae2 : alook areas R = some entry := by
          simpa [alook2, hal] using hae
        exact ⟨hkey, areas, rfl, entry, hae2, hfalse⟩

/-- Witness for `C1_region_novelty`: species `MX.1` has reference records,
province `ML.252` is aggregated for it but not "present", so the pair
appears in the `notinTE` rows. -/
theorem C1_witness :
    ∃ line ∈ notinTELines (occurrencesTE refs0) occ252,
      line.species = "MX.1" ∧ line.area = "ML.252" :=
  (C1_region_novelty (occurrencesTE refs0) (occurrencesTEall refs0) [raw252]
      occ252 (by decide) "MX.1" "ML.252").mpr
    ⟨⟨{ occurrenceCode := "MX.typeOfOccurrenceExtirpated",
        speciesName := "Barbula unguiculata",
        specimens := [{ specimenID := "U2", modifiedDate := "2021-02-02",
                        gatheredDate := "2000-07-01",
                        reliability := "RELIABLE" }] },
      by decide, by decide⟩, by decide, by decide⟩
